import Mathlib

/-!
# Verification of the account-file reconciliation engine (`bot.py`)

This file is a shallow embedding, in Lean 4, of the configuration-file
reconciliation engine of the repository: the tolerant line-oriented parser
`parse_accounts_accounts_section`, the canonical serializer `write_pk_yaml`,
the reconciliation loop of `sync_config_to_pk`, and the sync orchestration
around it.  Python dictionaries are modelled as association lists in
insertion order (keys unique in every state the program can produce), Python
strings as Lean `String`/`List Char`, and each regular expression of the
source is translated into an explicit matching function on the character
list of one line.  The `\s` class of Python's `re` module and `str.strip()`
are modelled by the set of Unicode whitespace characters Python recognises,
and `str.splitlines` by the set of line-break characters it recognises.
-/

namespace ShelbyBot

/-- Whitespace as recognised by Python's `str.strip()` and by `\s` in a
Unicode (`str`) regular expression: the characters `c` with `c.isspace()`
true. -/
def pySpaceChars : List Char :=
  [' ', '\t', '\n', '\r', '\x0b', '\x0c', '\x1c', '\x1d', '\x1e', '\x1f',
       '\x85', '\xa0', ' ', ' ', ' ', ' ', ' ',
       ' ', ' ', ' ', ' ', ' ', ' ', ' ',
       ' ', ' ', ' ', ' ', '　']

/-- Whitespace test used throughout: membership in `pySpaceChars`. -/
def pySpace (c : Char) : Bool := c ∈ pySpaceChars

/-- Character class `[A-Za-z0-9_.-]` used by the alias and top-level-key
regular expressions of `parse_accounts_accounts_section`. -/
def tokChar (c : Char) : Bool :=
  c.isAlpha || c.isDigit || c = '.' || c = '_' || c = '-'

/-- Line-boundary characters of Python's `str.splitlines` (`\r\n` counts as
a single boundary and is handled in `splitLines`). -/
def lineBreakChars : List Char :=
  ['\n', '\r', '\x0b', '\x0c', '\x1c', '\x1d', '\x1e',
       '\x85', ' ', ' ']

/-- Line-boundary test: membership in `lineBreakChars`. -/
def lineBreakChar (c : Char) : Bool := c ∈ lineBreakChars

/-- Model of `text.splitlines()`: split at every line boundary, treating
`\r\n` as a single boundary; a trailing boundary does not produce a final
empty line. -/
def splitLines : List Char → List (List Char)
  | [] => []
  | '\r' :: '\n' :: cs => [] :: splitLines cs
  | c :: cs =>
    if lineBreakChar c then [] :: splitLines cs
    else
      match splitLines cs with
      | [] => [[c]]
      | l :: ls => (c :: l) :: ls

/-- Drop leading Python whitespace (the `\s*` of a regular expression, or
the left half of `str.strip()`). -/
def dropWS (l : List Char) : List Char := l.dropWhile pySpace

/-- Model of Python `str.strip()`: drop leading and trailing whitespace. -/
def stripWS (l : List Char) : List Char :=
  ((l.dropWhile pySpace).reverse.dropWhile pySpace).reverse

/-- Match a literal string at the start of `l`, returning the remainder. -/
def dropLit : List Char → List Char → Option (List Char)
  | [], s => some s
  | _ :: _, [] => none
  | c :: cs, d :: ds => if d = c then dropLit cs ds else none

/-- Truthiness of a Python string: non-empty. -/
def truthy (s : String) : Bool := !s.data.isEmpty

/-- Model of `_strip_quotes` of `bot.py`: strip surrounding whitespace, then
one layer of matching single or double quotes (`s[1:-1]`). -/
def stripQuotes (s : List Char) : List Char :=
  let t := stripWS s
  match t with
  | [] => []
  | c :: cs =>
    if (c = '"' && (c :: cs).getLastD 'x' = '"') ||
       (c = '\'' && (c :: cs).getLastD 'x' = '\'') then
      cs.dropLast
    else t

/-- The anchor regular expression `^\s*accounts\s*:\s*$`. -/
def matchAnchor (l : List Char) : Bool :=
  match dropLit "accounts".data (dropWS l) with
  | none => false
  | some r =>
    match dropWS r with
    | ':' :: r2 => (dropWS r2).isEmpty
    | _ => false

/-- The section terminator: `re.match(r"^[A-Za-z0-9_.-]+\s*:\s*$", line)`
together with `not line.startswith(" ")`. -/
def matchTerm (l : List Char) : Bool :=
  (let name := l.takeWhile tokChar
   !name.isEmpty &&
    (match dropWS (l.drop name.length) with
     | ':' :: r2 => (dropWS r2).isEmpty
     | _ => false)) &&
  !(match l with | ' ' :: _ => true | _ => false)

/-- The alias-header regular expression `^\s{2}([A-Za-z0-9_.-]+)\s*:\s*$`;
returns the captured group. -/
def matchAlias (l : List Char) : Option (List Char) :=
  match l with
  | c1 :: c2 :: rest =>
    if pySpace c1 && pySpace c2 then
      let name := rest.takeWhile tokChar
      if name.isEmpty then none
      else
        match dropWS (rest.drop name.length) with
        | ':' :: r2 => if (dropWS r2).isEmpty then some name else none
        | _ => none
    else none
  | _ => none

/-- The address-field regular expression `^\s{4}address\s*:\s*(.+?)\s*$`;
returns the captured group.  With the greedy `\s*` and the lazy `(.+?)`
anchored by `\s*$`, the group is the value stripped of surrounding
whitespace when that is non-empty, and otherwise (value entirely
whitespace; the regex still needs one character in the group) the last
character of the all-whitespace value. -/
def matchAddr (l : List Char) : Option (List Char) :=
  match l with
  | c1 :: c2 :: c3 :: c4 :: rest =>
    if pySpace c1 && pySpace c2 && pySpace c3 && pySpace c4 then
      match dropLit "address".data rest with
      | none => none
      | some r =>
        match dropWS r with
        | ':' :: r2 =>
          if r2.isEmpty then none
          else if (stripWS r2).isEmpty then some [r2.getLastD 'x']
          else some (stripWS r2)
        | _ => none
    else none
  | _ => none

/-- The private-key-field regular expression
`^\s{4}private_key\s*:\s*(\S+)\s*$`; returns the captured group (the
maximal non-whitespace run after the colon, matching only when followed by
whitespace up to the end of the line). -/
def matchPk (l : List Char) : Option (List Char) :=
  match l with
  | c1 :: c2 :: c3 :: c4 :: rest =>
    if pySpace c1 && pySpace c2 && pySpace c3 && pySpace c4 then
      match dropLit "private_key".data rest with
      | none => none
      | some r =>
        match dropWS r with
        | ':' :: r2 =>
          let v := (dropWS r2).takeWhile (fun c => !pySpace c)
          if v.isEmpty then none
          else if ((dropWS r2).drop v.length).all pySpace then some v
          else none
        | _ => none
    else none
  | _ => none

/-- One account: the inner dictionary `{"address": ..., "private_key": ...}`
of `bot.py` (each key optional). -/
structure Acct where
  address : Option String
  privKey : Option String
deriving DecidableEq, Repr

/-- An account map (Python `Dict[str, Dict[str, str]]`) in insertion order. -/
abbrev AccountSet := List (String × Acct)

/-- Dictionary lookup (first occurrence; Python dictionaries never hold a
duplicated key). -/
def lookupA (a : String) : AccountSet → Option Acct
  | [] => none
  | (k, v) :: t => if k = a then some v else lookupA a t

/-- Test `alias in accounts` for a Python dictionary. -/
def containsKey (m : AccountSet) (a : String) : Bool :=
  match m with
  | [] => false
  | (k, _) :: t => k = a || containsKey t a

/-- Model of `accounts[alias]["address"] = v` (updates the first—in the
program the only—entry with that key). -/
def setAddr (m : AccountSet) (a : String) (v : String) : AccountSet :=
  match m with
  | [] => []
  | (k, d) :: t =>
    if k = a then (k, { d with address := some v }) :: t
    else (k, d) :: setAddr t a v

/-- Model of `accounts[alias]["private_key"] = v`. -/
def setPk (m : AccountSet) (a : String) (v : String) : AccountSet :=
  match m with
  | [] => []
  | (k, d) :: t =>
    if k = a then (k, { d with privKey := some v }) :: t
    else (k, d) :: setPk t a v

/-- The line loop of `parse_accounts_accounts_section` over the lines after
the `accounts:` anchor.  State: the account dictionary built so far and
`current_alias` (`""` when no alias context is open). -/
def scan : List (List Char) → AccountSet → String → AccountSet
  | [], acc, _ => acc
  | l :: ls, acc, cur =>
    if matchTerm l then acc
    else
      match matchAlias l with
      | some name =>
        let a : String := ⟨name⟩
        scan ls (if containsKey acc a then acc else acc ++ [(a, ⟨none, none⟩)]) a
      | none =>
        if cur = "" then scan ls acc cur
        else
          match matchAddr l with
          | some g => scan ls (setAddr acc cur ⟨stripQuotes g⟩) cur
          | none =>
            match matchPk l with
            | some g => scan ls (setPk acc cur ⟨stripQuotes g⟩) cur
            | none => scan ls acc cur

/-- The final cleanup of the parser: keep only accounts with at least one
truthy (present and non-empty) field. -/
def cleanup (m : AccountSet) : AccountSet :=
  m.filter fun p => truthy (p.2.address.getD "") || truthy (p.2.privKey.getD "")

/-- Find the first line matching the anchor; return the lines after it. -/
def findAnchor : List (List Char) → Option (List (List Char))
  | [] => none
  | l :: ls => if matchAnchor l then some ls else findAnchor ls

/-- Model of `parse_accounts_accounts_section` on a pre-split line list. -/
def parseLines (lines : List (List Char)) : AccountSet :=
  match findAnchor lines with
  | none => []
  | some rest => cleanup (scan rest [] "")

/-- Model of `parse_accounts_accounts_section(text)`. -/
def parse (text : String) : AccountSet :=
  parseLines (splitLines text.data)

/-- Python string comparison (as used by `sorted`): lexicographic by code
point. -/
def pyLe : List Char → List Char → Bool
  | [], _ => true
  | _ :: _, [] => false
  | a :: as, b :: bs => if a = b then pyLe as bs else decide (a.toNat < b.toNat)

/-- The key order used by `sorted(accounts.keys())`. -/
def keyLe (a b : String) : Prop := pyLe a.data b.data = true

instance : DecidableRel keyLe := fun _ _ => inferInstanceAs (Decidable (_ = true))

/-- Model of `sorted(accounts.keys())`. -/
def sortKeys (m : AccountSet) : List String :=
  List.insertionSort keyLe (m.map Prod.fst)

/-- The fixed warning comment emitted first by `write_pk_yaml`. -/
def headerComment : List Char :=
  "# IMPORTANT: This file contains PRIVATE KEYS. KEEP IT SECRET. DO NOT COMMIT.".data

/-- The serialized block for one alias in `write_pk_yaml`: the alias header,
then the address line (value stripped, wrapped in double quotes) unless the
stripped address is empty, then the private-key line (value stripped,
unquoted) unless the stripped key is empty. -/
def blockOf (m : AccountSet) (a : String) : List (List Char) :=
  let d := (lookupA a m).getD ⟨none, none⟩
  let addr := stripWS (d.address.getD "").data
  let pk := stripWS (d.privKey.getD "").data
  [' ' :: ' ' :: (a.data ++ [':'])] ++
  (if addr.isEmpty then [] else ["    address: \"".data ++ addr ++ ['"']]) ++
  (if pk.isEmpty then [] else ["    private_key: ".data ++ pk])

/-- The lines of `write_pk_yaml(accounts)` (each without its newline). -/
def serializeLines (m : AccountSet) : List (List Char) :=
  headerComment :: "accounts:".data :: (sortKeys m).flatMap (blockOf m)

/-- The text written by `write_pk_yaml(accounts)`: every line followed by a
newline, concatenated. -/
def serialize (m : AccountSet) : String :=
  ⟨(serializeLines m).flatMap (fun l => l ++ ['\n'])⟩

/-- The reconciliation statistics of `sync_config_to_pk`. -/
structure Report where
  added : Nat
  filled : Nat
  mismatches : Nat
deriving DecidableEq, Repr

/-- Python `(x or "").strip()` on an optional string. -/
def effVal (v : Option String) : String := ⟨stripWS (v.getD "").data⟩

/-- One iteration of the reconciliation loop of `sync_config_to_pk`, for a
source item `(alias, d)` against the destination map and counters. -/
def reconStep (m : AccountSet) (r : Report) (a : String) (d : Acct) :
    AccountSet × Report :=
  let ca := effVal d.address
  let ck := effVal d.privKey
  if !containsKey m a then
    (m ++ [(a, ⟨some ca, some ck⟩)], { r with added := r.added + 1 })
  else
    let pa := effVal ((lookupA a m).getD ⟨none, none⟩).address
    let pp := effVal ((lookupA a m).getD ⟨none, none⟩).privKey
    let m1 := if pa = "" ∧ ca ≠ "" then setAddr m a ca else m
    let f1 := if pa = "" ∧ ca ≠ "" then r.filled + 1 else r.filled
    let m2 := if pp = "" ∧ ck ≠ "" then setPk m1 a ck else m1
    let f2 := if pp = "" ∧ ck ≠ "" then f1 + 1 else f1
    let pa2 := effVal ((lookupA a m2).getD ⟨none, none⟩).address
    let pp2 := effVal ((lookupA a m2).getD ⟨none, none⟩).privKey
    let mm1 := if ca ≠ "" ∧ pa2 ≠ "" ∧ ca ≠ pa2 then r.mismatches + 1 else r.mismatches
    let mm2 := if ck ≠ "" ∧ pp2 ≠ "" ∧ ck ≠ pp2 then mm1 + 1 else mm1
    (m2, { r with filled := f2, mismatches := mm2 })

/-- The full reconciliation loop (`for alias, d in cfg_accounts.items()`). -/
def reconLoop : List (String × Acct) → AccountSet → Report → AccountSet × Report
  | [], m, r => (m, r)
  | (a, d) :: rest, m, r =>
    let s := reconStep m r a d
    reconLoop rest s.1 s.2

/-- The merge of `sync_config_to_pk`: source accounts folded into the
destination map, with counters starting at zero. -/
def reconcile (src dst : AccountSet) : AccountSet × Report :=
  reconLoop src dst ⟨0, 0, 0⟩

/-- The two fatal conditions `sync_config_to_pk` can raise:
`FileNotFoundError` for a missing config, `RuntimeError` for a config with
no accounts. -/
inductive SyncErr where
  | configNotFound
  | noAccounts
deriving DecidableEq, Repr

/-- The two documents `sync_config_to_pk` touches, `none` when the file
does not exist. -/
structure FS where
  cfg : Option String
  pk : Option String
deriving DecidableEq, Repr

/-- Model of `read_accounts_file(path)`: a missing file parses to the empty
map. -/
def readAccountsFile (t : Option String) : AccountSet :=
  match t with
  | none => []
  | some s => parse s

/-- Model of `sync_config_to_pk`: check the config exists, parse it, fail
when it has no accounts, parse the (possibly missing) destination,
reconcile, and only then write the serialized result to the destination.
Returns the final file system and either the error raised or the
reconciliation report. -/
def syncFS (fs : FS) : FS × Except SyncErr Report :=
  match fs.cfg with
  | none => (fs, .error .configNotFound)
  | some t =>
    let cfgA := parse t
    if cfgA.isEmpty then (fs, .error .noAccounts)
    else
      let pkA := readAccountsFile fs.pk
      let mr := reconcile cfgA pkA
      ({ fs with pk := some (serialize mr.1) }, .ok mr.2)

end ShelbyBot

/-! ## Basic dictionary lemmas -/

namespace ShelbyBot

theorem lookupA_eq_none_iff (a : String) (m : AccountSet) :
    lookupA a m = none ↔ containsKey m a = false := by
  induction m with
  | nil => simp [lookupA, containsKey]
  | cons p t ih =>
    obtain ⟨k, v⟩ := p
    by_cases h : k = a <;> simp [lookupA, containsKey, h, ih]

theorem containsKey_iff_lookupA (a : String) (m : AccountSet) :
    containsKey m a = true ↔ ∃ e, lookupA a m = some e := by
  induction m with
  | nil => simp [lookupA, containsKey]
  | cons p t ih =>
    obtain ⟨k, v⟩ := p
    by_cases h : k = a <;> simp [lookupA, containsKey, h, ih]

theorem lookupA_append_of_not_mem (a : String) (m m' : AccountSet)
    (h : containsKey m a = false) : lookupA a (m ++ m') = lookupA a m' := by
  induction m with
  | nil => simp
  | cons p t ih =>
    obtain ⟨k, v⟩ := p
    simp only [containsKey, Bool.or_eq_false_iff, decide_eq_false_iff_not] at h
    simp [lookupA, h.1, ih h.2]

theorem lookupA_append_of_mem (a : String) (m m' : AccountSet)
    (h : containsKey m a = true) : lookupA a (m ++ m') = lookupA a m := by
  induction m with
  | nil => simp [containsKey] at h
  | cons p t ih =>
    obtain ⟨k, v⟩ := p
    by_cases hk : k = a
    · simp [lookupA, hk]
    · simp only [containsKey, Bool.or_eq_true_iff, decide_eq_true_eq] at h
      rcases h with h | h
      · exact absurd h hk
      · simp [lookupA, hk, ih h]

theorem lookupA_setAddr_self (a : String) (v : String) (m : AccountSet) (e : Acct)
    (h : lookupA a m = some e) :
    lookupA a (setAddr m a v) = some { e with address := some v } := by
  induction m with
  | nil => simp [lookupA] at h
  | cons p t ih =>
    obtain ⟨k, d⟩ := p
    by_cases hk : k = a
    · simp [lookupA, hk] at h
      simp [setAddr, hk, lookupA, h]
    · simp [lookupA, hk] at h
      simp [setAddr, hk, lookupA, ih h]

theorem lookupA_setPk_self (a : String) (v : String) (m : AccountSet) (e : Acct)
    (h : lookupA a m = some e) :
    lookupA a (setPk m a v) = some { e with privKey := some v } := by
  induction m with
  | nil => simp [lookupA] at h
  | cons p t ih =>
    obtain ⟨k, d⟩ := p
    by_cases hk : k = a
    · simp [lookupA, hk] at h
      simp [setPk, hk, lookupA, h]
    · simp [lookupA, hk] at h
      simp [setPk, hk, lookupA, ih h]

theorem lookupA_setAddr_ne (a b : String) (v : String) (m : AccountSet)
    (h : b ≠ a) : lookupA a (setAddr m b v) = lookupA a m := by
  induction m with
  | nil => simp [setAddr]
  | cons p t ih =>
    obtain ⟨k, d⟩ := p
    by_cases hk : k = b
    · subst hk
      simp [setAddr, lookupA, h]
    · simp [setAddr, hk, lookupA, ih]

theorem lookupA_setPk_ne (a b : String) (v : String) (m : AccountSet)
    (h : b ≠ a) : lookupA a (setPk m b v) = lookupA a m := by
  induction m with
  | nil => simp [setPk]
  | cons p t ih =>
    obtain ⟨k, d⟩ := p
    by_cases hk : k = b
    · subst hk
      simp [setPk, lookupA, h]
    · simp [setPk, hk, lookupA, ih]

theorem containsKey_setAddr (a b v : String) (m : AccountSet) :
    containsKey (setAddr m b v) a = containsKey m a := by
  induction m with
  | nil => simp [setAddr]
  | cons p t ih =>
    obtain ⟨k, d⟩ := p
    by_cases hk : k = b <;> simp [setAddr, hk, containsKey, ih]

theorem containsKey_setPk (a b v : String) (m : AccountSet) :
    containsKey (setPk m b v) a = containsKey m a := by
  induction m with
  | nil => simp [setPk]
  | cons p t ih =>
    obtain ⟨k, d⟩ := p
    by_cases hk : k = b <;> simp [setPk, hk, containsKey, ih]

theorem containsKey_append (a : String) (m m' : AccountSet) :
    containsKey (m ++ m') a = (containsKey m a || containsKey m' a) := by
  induction m with
  | nil => simp [containsKey]
  | cons p t ih =>
    obtain ⟨k, d⟩ := p
    simp [containsKey, ih, Bool.or_assoc]

end ShelbyBot

/-! ## Parser-level claims -/

namespace ShelbyBot

theorem findAnchor_eq_none (lines : List (List Char))
    (h : ∀ l ∈ lines, matchAnchor l = false) : findAnchor lines = none := by
  induction lines with
  | nil => rfl
  | cons l ls ih =>
    have h0 := h l (by simp)
    simp only [findAnchor, h0, Bool.false_eq_true, if_false]
    exact ih fun x hx => h x (by simp [hx])

/-- C5 (amended): the parser starts the accounts section at the first line
consisting of optional leading whitespace, the key `accounts`, optional
whitespace, a colon, and trailing whitespace only — leading whitespace is
accepted, not rejected.  If no line of the input matches that pattern,
`parse` returns the empty account set; and a line with leading whitespace
before `accounts:` does match the anchor pattern. -/
theorem c5_anchor_behavior :
    (∀ text : String, (∀ l ∈ splitLines text.data, matchAnchor l = false) →
      parse text = []) ∧
    matchAnchor "  accounts:".data = true := by
  constructor
  · intro text h
    unfold parse parseLines
    rw [findAnchor_eq_none _ h]
  · decide

/-- Witness for C5: a document with no `accounts:` anchor line at all
parses to the empty account set. -/
theorem c5_anchor_behavior_witness :
    parse "top: 1\nother:\n  x:\n    address: y" = [] :=
  c5_anchor_behavior.1 "top: 1\nother:\n  x:\n    address: y" (by decide)

/-- Counterexample to C5 as stated: a document whose only `accounts:` line
is preceded by leading whitespace does NOT yield the empty AccountSet — the
anchor regular expression `^\s*accounts\s*:\s*$` accepts leading
whitespace. -/
theorem c5_counterexample :
    parse "  accounts:\n  b:\n    address: x" = [("b", ⟨some "x", none⟩)] ∧
    ([("b", (⟨some "x", none⟩ : Acct))] : AccountSet) ≠ [] := by
  constructor
  · decide
  · decide

/-- C7: parser totality and output hygiene.  The parse function is total by
construction (any input string yields an account set); every account of the
result has at least one present, non-empty field (the cleanup filter); and
inside the section a line that is neither a terminator nor an alias header
is skipped without effect while no alias context is open (so field lines
before any alias header are ignored). -/
theorem c7_totality_hygiene :
    (∀ (text : String) (a : String) (d : Acct), (a, d) ∈ parse text →
      (truthy (d.address.getD "") || truthy (d.privKey.getD "")) = true) ∧
    (∀ (l : List Char) (ls : List (List Char)) (m : AccountSet),
      matchTerm l = false → matchAlias l = none →
      scan (l :: ls) m "" = scan ls m "") := by
  constructor
  · intro text a d hmem
    unfold parse parseLines at hmem
    cases hfa : findAnchor (splitLines text.data) with
    | none => rw [hfa] at hmem; simp at hmem
    | some rest =>
      rw [hfa] at hmem
      have := List.mem_filter.mp hmem
      exact this.2
  · intro l ls m h1 h2
    simp [scan, h1, h2]

/-- Witness for C7: a concrete parse result account indeed has a non-empty
field, and a concrete orphan field line before any alias header is
skipped. -/
theorem c7_totality_hygiene_witness :
    (truthy ((some "x" : Option String).getD "") ||
      truthy ((none : Option String).getD "")) = true ∧
    scan ["    address: y".data] [] "" = scan [] [] "" :=
  ⟨c7_totality_hygiene.1 "accounts:\n  a:\n    address: x" "a" ⟨some "x", none⟩
      (by decide),
   c7_totality_hygiene.2 "    address: y".data [] [] (by decide) (by decide)⟩

/-- C10: last occurrence wins.  Storing an address (resp. private key) for
an alias overwrites any previously stored value for that field; processing
an address-field line inside an alias context performs exactly that
overwrite; and in a document that repeats a field line for the same alias
(also across a duplicated alias-header section) the parsed value is the one
of the last matching line. -/
theorem c10_last_wins :
    (∀ (m : AccountSet) (a w : String) (e : Acct), lookupA a m = some e →
      lookupA a (setAddr m a w) = some { e with address := some w }) ∧
    (∀ (m : AccountSet) (a w : String) (e : Acct), lookupA a m = some e →
      lookupA a (setPk m a w) = some { e with privKey := some w }) ∧
    (∀ (l : List Char) (ls : List (List Char)) (m : AccountSet) (cur : String)
      (g : List Char), matchTerm l = false → matchAlias l = none → cur ≠ "" →
      matchAddr l = some g →
      scan (l :: ls) m cur = scan ls (setAddr m cur ⟨stripQuotes g⟩) cur) ∧
    parse "accounts:\n  a:\n    address: x\n  b:\n    address: q\n  a:\n    address: y\n    address: z"
      = [("a", ⟨some "z", none⟩), ("b", ⟨some "q", none⟩)] := by
  refine ⟨fun m a w e h => lookupA_setAddr_self a w m e h,
          fun m a w e h => lookupA_setPk_self a w m e h, ?_, by decide⟩
  intro l ls m cur g h1 h2 h3 h4
  simp [scan, h1, h2, h3, h4]

/-- Witness for C10: overwriting a stored address at a concrete map. -/
theorem c10_last_wins_witness :
    lookupA "a" (setAddr [("a", ⟨some "x", none⟩)] "a" "z") =
      some { address := some "z", privKey := none } :=
  c10_last_wins.1 [("a", ⟨some "x", none⟩)] "a" "z" ⟨some "x", none⟩ (by decide)

end ShelbyBot

/-! ## Character-class and indentation lemmas -/

namespace ShelbyBot

theorem tokChar_not_pySpace (c : Char) (h : tokChar c = true) : pySpace c = false := by
  cases hp : pySpace c
  · rfl
  · exfalso
    have hc : c ∈ pySpaceChars := by
      have := hp
      simp only [pySpace, decide_eq_true_eq] at this
      exact this
    have hall : ∀ x ∈ pySpaceChars, tokChar x = false := by decide
    rw [hall c hc] at h
    exact Bool.false_ne_true h

theorem takeWhile_tok_append (name : List Char) (r : List Char)
    (h : name.all tokChar = true)
    (hr : ∀ c, r.head? = some c → tokChar c = false) :
    (name ++ r).takeWhile tokChar = name ∧ (name ++ r).drop name.length = r := by
  induction name with
  | nil =>
    simp only [List.nil_append, List.length_nil, List.drop_zero, and_true]
    cases r with
    | nil => rfl
    | cons c cs =>
      have := hr c rfl
      simp [List.takeWhile, this]
  | cons n ns ih =>
    simp only [List.all_cons, Bool.and_eq_true] at h
    have := ih h.2
    simp [List.takeWhile, h.1, this.1, this.2]

theorem dropWS_eq_self (l : List Char) (h : ∀ c ∈ l, pySpace c = false) :
    dropWS l = l := by
  cases l with
  | nil => rfl
  | cons c cs =>
    have := h c (by simp)
    simp [dropWS, List.dropWhile, this]

theorem stripWS_eq_self (l : List Char) (h : ∀ c ∈ l, pySpace c = false) :
    stripWS l = l := by
  unfold stripWS
  rw [show l.dropWhile pySpace = dropWS l from rfl, dropWS_eq_self l h,
    show l.reverse.dropWhile pySpace = dropWS l.reverse from rfl,
    dropWS_eq_self l.reverse (by intro c hc; exact h c (List.mem_reverse.mp hc)),
    List.reverse_reverse]

/-- C6 (amended): exact indentation contract, with whitespace rather than
space characters.  An alias-header line indented by `k` space characters
with `k ≠ 2` never matches; a line indented by exactly two whitespace
characters (spaces, but also tabs and the other `\s` characters) with a
token name and a colon does match; a field line indented by `k ≠ 4` spaces
never matches the address or private-key pattern; and the spec's example —
an alias header indented by three spaces — parses to zero accounts. -/
theorem c6_indentation :
    (∀ (k : Nat) (name : List Char), name ≠ [] → name.all tokChar = true →
      k ≠ 2 → matchAlias (List.replicate k ' ' ++ (name ++ [':'])) = none) ∧
    (∀ (c1 c2 : Char) (name : List Char), pySpace c1 = true → pySpace c2 = true →
      name ≠ [] → name.all tokChar = true →
      matchAlias (c1 :: c2 :: (name ++ [':'])) = some name) ∧
    (∀ (k : Nat) (v : List Char), k ≠ 4 →
      matchAddr (List.replicate k ' ' ++ ("address:".data ++ v)) = none) ∧
    (∀ (k : Nat) (v : List Char), k ≠ 4 →
      matchPk (List.replicate k ' ' ++ ("private_key:".data ++ v)) = none) ∧
    parse "accounts:\n   a:\n    address: x" = [] := by
  have hsp : pySpace ' ' = true := by decide
  refine ⟨?_, ?_, ?_, ?_, by decide⟩
  · intro k name hne hall hk
    match k, hk with
    | 0, _ =>
      cases name with
      | nil => exact absurd rfl hne
      | cons n ns =>
        simp only [List.all_cons, Bool.and_eq_true] at hall
        have hn := tokChar_not_pySpace n hall.1
        cases ns with
        | nil => simp [matchAlias, hn]
        | cons n2 ns2 => simp [matchAlias, hn]
    | 1, _ =>
      cases name with
      | nil => exact absurd rfl hne
      | cons n ns =>
        simp only [List.all_cons, Bool.and_eq_true] at hall
        have hn := tokChar_not_pySpace n hall.1
        simp [matchAlias, List.replicate, hn, hsp]
    | (j+3), _ =>
      have : List.replicate (j+3) ' ' ++ (name ++ [':'])
          = ' ' :: ' ' :: (' ' :: (List.replicate j ' ' ++ (name ++ [':']))) := by
        simp [List.replicate_succ]
      rw [this]
      have htw : (' ' :: (List.replicate j ' ' ++ (name ++ [':']))).takeWhile tokChar
          = [] := by
        simp [List.takeWhile, show tokChar ' ' = false from by decide]
      simp [matchAlias, hsp, htw]
  · intro c1 c2 name h1 h2 hne hall
    have := takeWhile_tok_append name [':'] hall
      (by intro c hc; simp at hc; subst hc; decide)
    simp [matchAlias, h1, h2, this.1, this.2, List.isEmpty_iff, hne, dropWS,
      List.dropWhile, show pySpace ':' = false from by decide]
  · intro k v hk
    match k, hk with
    | 0, _ => simp [matchAddr, show pySpace 'a' = false from by decide]
    | 1, _ => simp [matchAddr, List.replicate, hsp,
        show pySpace 'a' = false from by decide]
    | 2, _ => simp [matchAddr, List.replicate, hsp,
        show pySpace 'a' = false from by decide]
    | 3, _ => simp [matchAddr, List.replicate, hsp,
        show pySpace 'a' = false from by decide]
    | (j+5), _ =>
      have : List.replicate (j+5) ' ' ++ ("address:".data ++ v)
          = ' ' :: ' ' :: ' ' :: ' ' ::
            (' ' :: (List.replicate j ' ' ++ ("address:".data ++ v))) := by
        simp [List.replicate_succ]
      rw [this]
      cases j with
      | zero => simp [matchAddr, hsp, dropLit]
      | succ j' => simp [matchAddr, hsp, List.replicate_succ, dropLit]
  · intro k v hk
    match k, hk with
    | 0, _ => simp [matchPk, show pySpace 'p' = false from by decide]
    | 1, _ => simp [matchPk, List.replicate, hsp,
        show pySpace 'p' = false from by decide]
    | 2, _ => simp [matchPk, List.replicate, hsp,
        show pySpace 'p' = false from by decide]
    | 3, _ => simp [matchPk, List.replicate, hsp,
        show pySpace 'p' = false from by decide]
    | (j+5), _ =>
      have : List.replicate (j+5) ' ' ++ ("private_key:".data ++ v)
          = ' ' :: ' ' :: ' ' :: ' ' ::
            (' ' :: (List.replicate j ' ' ++ ("private_key:".data ++ v))) := by
        simp [List.replicate_succ]
      rw [this]
      cases j with
      | zero => simp [matchPk, hsp, dropLit]
      | succ j' => simp [matchPk, hsp, List.replicate_succ, dropLit]

/-- Witness for C6: a three-space alias header does not match, a two-space
one does. -/
theorem c6_indentation_witness :
    matchAlias (List.replicate 3 ' ' ++ ("ab".data ++ [':'])) = none ∧
    matchAlias (' ' :: ' ' :: ("ab".data ++ [':'])) = some "ab".data :=
  ⟨c6_indentation.1 3 "ab".data (by decide) (by decide) (by decide),
   c6_indentation.2.1 ' ' ' ' "ab".data (by decide) (by decide) (by decide) (by decide)⟩

/-- Counterexample to C6 as stated: the regular expressions use `\s{2}` and
`\s{4}`, so a tab-indented alias header (not two spaces) is recognized —
this document contains no line indented with two spaces, yet it parses to
one account. -/
theorem c6_counterexample :
    parse "accounts:\n\t\tx:\n\t\t\t\tprivate_key: k" = [("x", ⟨none, some "k"⟩)] ∧
    ([("x", (⟨none, some "k"⟩ : Acct))] : AccountSet) ≠ [] := ⟨by decide, by decide⟩

end ShelbyBot

/-! ## Sync orchestrator claims -/

namespace ShelbyBot

/-- C8: the sync operation fails exactly when the source config is missing
(`configNotFound`) or parses to zero accounts (`noAccounts`); the two error
kinds are distinct; on any failure the file system is left untouched (the
destination is written only on success); and a missing destination document
is read as the empty account set rather than an error. -/
theorem c8_sync_failure :
    (∀ fs : FS, (syncFS fs).2 = Except.error SyncErr.configNotFound ↔
      fs.cfg = none) ∧
    (∀ fs : FS, (syncFS fs).2 = Except.error SyncErr.noAccounts ↔
      ∃ t, fs.cfg = some t ∧ parse t = []) ∧
    (∀ (fs : FS) (e : SyncErr), (syncFS fs).2 = Except.error e →
      (syncFS fs).1 = fs) ∧
    SyncErr.configNotFound ≠ SyncErr.noAccounts ∧
    readAccountsFile none = [] := by
  refine ⟨?_, ?_, ?_, by decide, rfl⟩
  · rintro ⟨cfg, pk⟩
    cases cfg with
    | none => simp [syncFS]
    | some t =>
      by_cases h : (parse t).isEmpty <;> simp [syncFS, h]
  · rintro ⟨cfg, pk⟩
    cases cfg with
    | none => simp [syncFS]
    | some t =>
      by_cases h : (parse t).isEmpty
      · simp [syncFS, h, List.isEmpty_iff.mp h]
      · simp only [List.isEmpty_iff] at h
        simp [syncFS, List.isEmpty_iff, h]
  · rintro ⟨cfg, pk⟩ e
    cases cfg with
    | none => intro _; rfl
    | some t =>
      by_cases h : (parse t).isEmpty <;> simp [syncFS, h]

/-- Witness for C8: a file system with no config file fails with
`configNotFound`, and the failing run leaves the file system unchanged. -/
theorem c8_sync_failure_witness :
    (syncFS ⟨none, some "x"⟩).2 = Except.error SyncErr.configNotFound ∧
    (syncFS ⟨none, some "x"⟩).1 = ⟨none, some "x"⟩ :=
  ⟨(c8_sync_failure.1 ⟨none, some "x"⟩).mpr rfl,
   c8_sync_failure.2.2.1 ⟨none, some "x"⟩ SyncErr.configNotFound
     ((c8_sync_failure.1 ⟨none, some "x"⟩).mpr rfl)⟩

end ShelbyBot

/-! ## Reconciler lemmas -/

namespace ShelbyBot

theorem reconStep_absent (m : AccountSet) (r : Report) (a : String) (d : Acct)
    (h : containsKey m a = false) :
    reconStep m r a d =
      (m ++ [(a, ⟨some (effVal d.address), some (effVal d.privKey)⟩)],
       { r with added := r.added + 1 }) := by
  simp [reconStep, h]

theorem reconStep_present_map (m : AccountSet) (r : Report) (a : String) (d : Acct)
    (h : containsKey m a = true) :
    (reconStep m r a d).1 =
      (let e := (lookupA a m).getD ⟨none, none⟩
       let m1 := if effVal e.address = "" ∧ effVal d.address ≠ "" then
           setAddr m a (effVal d.address) else m
       if effVal e.privKey = "" ∧ effVal d.privKey ≠ "" then
         setPk m1 a (effVal d.privKey) else m1) := by
  simp [reconStep, h]

theorem reconStep_containsKey (m : AccountSet) (r : Report) (a b : String)
    (d : Acct) (h : containsKey m b = true) :
    containsKey (reconStep m r a d).1 b = true := by
  by_cases ha : containsKey m a = true
  · rw [reconStep_present_map m r a d ha]
    by_cases h1 : effVal ((lookupA a m).getD ⟨none, none⟩).address = "" ∧
        effVal d.address ≠ "" <;>
      by_cases h2 : effVal ((lookupA a m).getD ⟨none, none⟩).privKey = "" ∧
        effVal d.privKey ≠ "" <;>
      simp [h1, h2, containsKey_setAddr, containsKey_setPk, h]
  · rw [reconStep_absent m r a d (by simpa using ha)]
    simp [containsKey_append, h]

theorem reconStep_self_containsKey (m : AccountSet) (r : Report) (a : String)
    (d : Acct) : containsKey (reconStep m r a d).1 a = true := by
  by_cases ha : containsKey m a = true
  · exact reconStep_containsKey m r a a d ha
  · rw [reconStep_absent m r a d (by simpa using ha)]
    simp [containsKey_append, containsKey]

theorem reconStep_lookup_ne (m : AccountSet) (r : Report) (a b : String)
    (d : Acct) (h : a ≠ b) :
    lookupA b (reconStep m r a d).1 = lookupA b m := by
  by_cases ha : containsKey m a = true
  · rw [reconStep_present_map m r a d ha]
    by_cases h1 : effVal ((lookupA a m).getD ⟨none, none⟩).address = "" ∧
        effVal d.address ≠ "" <;>
      by_cases h2 : effVal ((lookupA a m).getD ⟨none, none⟩).privKey = "" ∧
        effVal d.privKey ≠ "" <;>
      simp [h1, h2, lookupA_setAddr_ne b a _ _ h, lookupA_setPk_ne b a _ _ h]
  · rw [reconStep_absent m r a d (by simpa using ha)]
    by_cases hb : containsKey m b = true
    · exact lookupA_append_of_mem b m _ hb
    · rw [lookupA_append_of_not_mem b m _ (by simpa using hb)]
      rw [(lookupA_eq_none_iff b m).mpr (by simpa using hb)]
      simp [lookupA, h]

theorem reconStep_addr_frame (m : AccountSet) (r : Report) (b : String)
    (db : Acct) (a : String) (e : Acct) (hl : lookupA a m = some e)
    (hne : effVal e.address ≠ "") :
    ∃ e', lookupA a (reconStep m r b db).1 = some e' ∧ e'.address = e.address := by
  by_cases hb : b = a
  · subst hb
    have hc : containsKey m b = true :=
      (containsKey_iff_lookupA b m).mpr ⟨e, hl⟩
    rw [reconStep_present_map m r b db hc, hl]
    simp only [Option.getD_some]
    by_cases h2 : effVal e.privKey = "" ∧ effVal db.privKey ≠ ""
    · rw [if_pos h2, if_neg (by simp [hne])]
      exact ⟨_, lookupA_setPk_self b _ m e hl, rfl⟩
    · rw [if_neg h2, if_neg (by simp [hne])]
      exact ⟨e, hl, rfl⟩
  · rw [reconStep_lookup_ne m r b a db hb]
    exact ⟨e, hl, rfl⟩

theorem reconStep_pk_frame (m : AccountSet) (r : Report) (b : String)
    (db : Acct) (a : String) (e : Acct) (hl : lookupA a m = some e)
    (hne : effVal e.privKey ≠ "") :
    ∃ e', lookupA a (reconStep m r b db).1 = some e' ∧ e'.privKey = e.privKey := by
  by_cases hb : b = a
  · subst hb
    have hc : containsKey m b = true :=
      (containsKey_iff_lookupA b m).mpr ⟨e, hl⟩
    rw [reconStep_present_map m r b db hc, hl]
    simp only [Option.getD_some]
    rw [if_neg (by simp [hne])]
    by_cases h1 : effVal e.address = "" ∧ effVal db.address ≠ ""
    · rw [if_pos h1]
      exact ⟨_, lookupA_setAddr_self b _ m e hl, rfl⟩
    · rw [if_neg h1]
      exact ⟨e, hl, rfl⟩
  · rw [reconStep_lookup_ne m r b a db hb]
    exact ⟨e, hl, rfl⟩

theorem reconLoop_containsKey (S : List (String × Acct)) (m : AccountSet)
    (r : Report) (a : String) (h : containsKey m a = true) :
    containsKey (reconLoop S m r).1 a = true := by
  induction S generalizing m r with
  | nil => exact h
  | cons p rest ih =>
    obtain ⟨b, db⟩ := p
    exact ih _ _ (reconStep_containsKey m r b a db h)

theorem reconLoop_mem_containsKey (S : List (String × Acct)) (m : AccountSet)
    (r : Report) (a : String) (d : Acct) (h : (a, d) ∈ S) :
    containsKey (reconLoop S m r).1 a = true := by
  induction S generalizing m r with
  | nil => simp at h
  | cons p rest ih =>
    obtain ⟨b, db⟩ := p
    rcases List.mem_cons.mp h with heq | hmem
    · injection heq with h1 h2
      subst h1
      exact reconLoop_containsKey rest _ _ a (reconStep_self_containsKey m r a db)
    · exact ih _ _ hmem

theorem reconLoop_lookup_notin (S : List (String × Acct)) (m : AccountSet)
    (r : Report) (a : String) (h : ∀ p ∈ S, p.1 ≠ a) :
    lookupA a (reconLoop S m r).1 = lookupA a m := by
  induction S generalizing m r with
  | nil => rfl
  | cons p rest ih =>
    obtain ⟨b, db⟩ := p
    have hb : b ≠ a := h (b, db) (by simp)
    rw [show reconLoop ((b, db) :: rest) m r
        = reconLoop rest (reconStep m r b db).1 (reconStep m r b db).2 from rfl]
    rw [ih _ _ (fun p hp => h p (by simp [hp]))]
    exact reconStep_lookup_ne m r b a db hb

theorem reconLoop_addr_frame (S : List (String × Acct)) (m : AccountSet)
    (r : Report) (a : String) (e : Acct) (hl : lookupA a m = some e)
    (hne : effVal e.address ≠ "") :
    ∃ e', lookupA a (reconLoop S m r).1 = some e' ∧ e'.address = e.address := by
  induction S generalizing m r e with
  | nil => exact ⟨e, hl, rfl⟩
  | cons p rest ih =>
    obtain ⟨b, db⟩ := p
    obtain ⟨e1, he1, had⟩ := reconStep_addr_frame m r b db a e hl hne
    obtain ⟨e2, he2, had2⟩ := ih _ _ e1 he1 (by rw [had]; exact hne)
    exact ⟨e2, he2, by rw [had2, had]⟩

theorem reconLoop_pk_frame (S : List (String × Acct)) (m : AccountSet)
    (r : Report) (a : String) (e : Acct) (hl : lookupA a m = some e)
    (hne : effVal e.privKey ≠ "") :
    ∃ e', lookupA a (reconLoop S m r).1 = some e' ∧ e'.privKey = e.privKey := by
  induction S generalizing m r e with
  | nil => exact ⟨e, hl, rfl⟩
  | cons p rest ih =>
    obtain ⟨b, db⟩ := p
    obtain ⟨e1, he1, had⟩ := reconStep_pk_frame m r b db a e hl hne
    obtain ⟨e2, he2, had2⟩ := ih _ _ e1 he1 (by rw [had]; exact hne)
    exact ⟨e2, he2, by rw [had2, had]⟩

end ShelbyBot

/-! ## Reconciler claims -/

namespace ShelbyBot

/-- C2 (amended): non-destructiveness of reconciliation, with "non-empty"
read as the code reads it — non-empty after stripping whitespace.  The loop
never removes an alias from the destination; an alias present only in the
destination keeps its exact entry; and a destination field that is
non-blank (non-empty after `strip()`) keeps its exact original value.  A
destination field whose value is whitespace-only counts as empty and may be
overwritten. -/
theorem c2_nondestructive :
    (∀ (S D : AccountSet) (a : String), containsKey D a = true →
      containsKey (reconcile S D).1 a = true) ∧
    (∀ (S D : AccountSet) (a : String) (e : Acct), lookupA a D = some e →
      (∀ p ∈ S, p.1 ≠ a) → lookupA a (reconcile S D).1 = some e) ∧
    (∀ (S D : AccountSet) (a : String) (e : Acct), lookupA a D = some e →
      effVal e.address ≠ "" →
      ∃ e', lookupA a (reconcile S D).1 = some e' ∧ e'.address = e.address) ∧
    (∀ (S D : AccountSet) (a : String) (e : Acct), lookupA a D = some e →
      effVal e.privKey ≠ "" →
      ∃ e', lookupA a (reconcile S D).1 = some e' ∧ e'.privKey = e.privKey) := by
  refine ⟨?_, ?_, ?_, ?_⟩
  · intro S D a h
    exact reconLoop_containsKey S D ⟨0, 0, 0⟩ a h
  · intro S D a e hl h
    unfold reconcile
    rw [reconLoop_lookup_notin S D ⟨0, 0, 0⟩ a h]
    exact hl
  · intro S D a e hl hne
    exact reconLoop_addr_frame S D ⟨0, 0, 0⟩ a e hl hne
  · intro S D a e hl hne
    exact reconLoop_pk_frame S D ⟨0, 0, 0⟩ a e hl hne

/-- Witness for C2: a destination-only alias survives reconciliation
unchanged, and a non-blank destination address is kept verbatim. -/
theorem c2_nondestructive_witness :
    lookupA "only" (reconcile [("src", ⟨some "x", none⟩)]
      [("only", ⟨some "0xD", some "kD"⟩)]).1 = some ⟨some "0xD", some "kD"⟩ ∧
    ∃ e', lookupA "b" (reconcile [("b", ⟨some "0xS", none⟩)]
      [("b", ⟨some "0xD", none⟩)]).1 = some e' ∧ e'.address = some "0xD" :=
  ⟨c2_nondestructive.2.1 [("src", ⟨some "x", none⟩)]
      [("only", ⟨some "0xD", some "kD"⟩)] "only" ⟨some "0xD", some "kD"⟩
      (by decide) (by decide),
   c2_nondestructive.2.2.1 [("b", ⟨some "0xS", none⟩)] [("b", ⟨some "0xD", none⟩)]
      "b" ⟨some "0xD", none⟩ (by decide) (by decide)⟩

/-- Counterexample to C2 as stated: a destination field holding the
non-empty string `" "` (one space, blank after stripping) is overwritten by
the source value, so not every non-empty destination field keeps its
original value. -/
theorem c2_counterexample :
    lookupA "a" (reconcile [("a", ⟨some "x", none⟩)] [("a", ⟨some " ", none⟩)]).1
      = some ⟨some "x", none⟩ ∧
    (some "x" : Option String) ≠ some " " := ⟨by decide, by decide⟩

end ShelbyBot

/-! ## Stripping lemmas -/

namespace ShelbyBot

theorem dropWhile_head_not (p : Char → Bool) (l : List Char) (c : Char)
    (h : (l.dropWhile p).head? = some c) : p c = false := by
  induction l with
  | nil => simp [List.dropWhile] at h
  | cons x xs ih =>
    by_cases hx : p x
    · rw [List.dropWhile_cons_of_pos hx] at h
      exact ih h
    · rw [List.dropWhile_cons_of_neg hx] at h
      simp at h
      subst h
      simpa using hx

theorem dropWhile_eq_self_of_head (p : Char → Bool) (l : List Char)
    (h : ∀ c, l.head? = some c → p c = false) : l.dropWhile p = l := by
  cases l with
  | nil => rfl
  | cons x xs => exact List.dropWhile_cons_of_neg (by simp [h x rfl])

theorem stripWS_eq_self_of_ends (l : List Char)
    (h1 : ∀ c, l.head? = some c → pySpace c = false)
    (h2 : ∀ c, l.getLast? = some c → pySpace c = false) : stripWS l = l := by
  unfold stripWS
  rw [dropWhile_eq_self_of_head pySpace l h1,
    dropWhile_eq_self_of_head pySpace l.reverse
      (by intro c hc; exact h2 c (by rwa [List.head?_reverse] at hc)),
    List.reverse_reverse]

theorem stripWS_prefix (l : List Char) :
    l.dropWhile pySpace = stripWS l ++ ((l.dropWhile pySpace).reverse.takeWhile pySpace).reverse := by
  unfold stripWS
  rw [← List.reverse_append, List.takeWhile_append_dropWhile, List.reverse_reverse]

theorem stripWS_head_not (l : List Char) (c : Char)
    (h : (stripWS l).head? = some c) : pySpace c = false := by
  have hpre := stripWS_prefix l
  cases hs : stripWS l with
  | nil => rw [hs] at h; simp at h
  | cons b bs =>
    rw [hs] at h hpre
    simp only [List.head?_cons, Option.some.injEq] at h
    exact dropWhile_head_not pySpace l c (by rw [hpre, h]; rfl)

theorem stripWS_getLast_not (l : List Char) (c : Char)
    (h : (stripWS l).getLast? = some c) : pySpace c = false := by
  unfold stripWS at h
  rw [List.getLast?_reverse] at h
  exact dropWhile_head_not pySpace _ c h

theorem stripWS_idem (l : List Char) : stripWS (stripWS l) = stripWS l :=
  stripWS_eq_self_of_ends (stripWS l) (stripWS_head_not l) (stripWS_getLast_not l)

theorem effVal_effVal (v : Option String) :
    effVal (some (effVal v)) = effVal v := by
  unfold effVal
  rw [Option.getD_some]
  exact congrArg String.mk (stripWS_idem _)

end ShelbyBot

/-! ## Idempotence of the merge -/

namespace ShelbyBot

/-- After one merge pass, the destination "covers" a source item: the alias
is present, and every non-blank source field faces a non-blank destination
field. -/
def covers (m : AccountSet) (a : String) (d : Acct) : Prop :=
  ∃ e, lookupA a m = some e ∧
    (effVal d.address ≠ "" → effVal e.address ≠ "") ∧
    (effVal d.privKey ≠ "" → effVal e.privKey ≠ "")

theorem reconStep_lookup_self (m : AccountSet) (r : Report) (a : String)
    (d : Acct) (e : Acct) (h : lookupA a m = some e) :
    lookupA a (reconStep m r a d).1 = some
      ⟨if effVal e.address = "" ∧ effVal d.address ≠ "" then
          some (effVal d.address) else e.address,
        if effVal e.privKey = "" ∧ effVal d.privKey ≠ "" then
          some (effVal d.privKey) else e.privKey⟩ := by
  have hc : containsKey m a = true := (containsKey_iff_lookupA a m).mpr ⟨e, h⟩
  rw [reconStep_present_map m r a d hc, h]
  simp only [Option.getD_some]
  by_cases h1 : effVal e.address = "" ∧ effVal d.address ≠ "" <;>
    by_cases h2 : effVal e.privKey = "" ∧ effVal d.privKey ≠ ""
  · rw [if_pos h1, if_pos h2, if_pos h1, if_pos h2]
    have := lookupA_setAddr_self a (effVal d.address) m e h
    rw [lookupA_setPk_self a (effVal d.privKey) _ _ this]
  · rw [if_pos h1, if_neg h2, if_pos h1, if_neg h2]
    exact lookupA_setAddr_self a (effVal d.address) m e h
  · rw [if_neg h1, if_pos h2, if_neg h1, if_pos h2]
    exact lookupA_setPk_self a (effVal d.privKey) m e h
  · rw [if_neg h1, if_neg h2, if_neg h1, if_neg h2]
    exact h

theorem reconStep_covers_self (m : AccountSet) (r : Report) (a : String)
    (d : Acct) : covers (reconStep m r a d).1 a d := by
  by_cases hc : containsKey m a = true
  · obtain ⟨e, he⟩ := (containsKey_iff_lookupA a m).mp hc
    refine ⟨_, reconStep_lookup_self m r a d e he, ?_, ?_⟩
    · intro hd
      by_cases h1 : effVal e.address = "" ∧ effVal d.address ≠ ""
      · simp [h1, effVal_effVal, hd]
      · have : effVal e.address ≠ "" := by
          by_cases hz : effVal e.address = ""
          · exact absurd ⟨hz, hd⟩ h1
          · exact hz
        simp [h1, this]
    · intro hd
      by_cases h2 : effVal e.privKey = "" ∧ effVal d.privKey ≠ ""
      · simp [h2, effVal_effVal, hd]
      · have : effVal e.privKey ≠ "" := by
          by_cases hz : effVal e.privKey = ""
          · exact absurd ⟨hz, hd⟩ h2
          · exact hz
        simp [h2, this]
  · rw [reconStep_absent m r a d (by simpa using hc)]
    refine ⟨⟨some (effVal d.address), some (effVal d.privKey)⟩, ?_, ?_, ?_⟩
    · rw [lookupA_append_of_not_mem a m _ (by simpa using hc)]
      simp [lookupA]
    · intro hd; simpa [effVal_effVal] using hd
    · intro hd; simpa [effVal_effVal] using hd

theorem reconStep_covers_mono (m : AccountSet) (r : Report) (b : String)
    (db : Acct) (a : String) (d : Acct) (h : covers m a d) :
    covers (reconStep m r b db).1 a d := by
  obtain ⟨e, he, ha, hp⟩ := h
  by_cases hb : b = a
  · subst hb
    refine ⟨_, reconStep_lookup_self m r b db e he, ?_, ?_⟩
    · intro hd
      by_cases h1 : effVal e.address = "" ∧ effVal db.address ≠ ""
      · simp [h1, effVal_effVal, h1.2]
      · simp [h1, ha hd]
    · intro hd
      by_cases h2 : effVal e.privKey = "" ∧ effVal db.privKey ≠ ""
      · simp [h2, effVal_effVal, h2.2]
      · simp [h2, hp hd]
  · rw [covers, reconStep_lookup_ne m r b a db hb]
    exact ⟨e, he, ha, hp⟩

theorem reconLoop_covers_mono (S : List (String × Acct)) (m : AccountSet)
    (r : Report) (a : String) (d : Acct) (h : covers m a d) :
    covers (reconLoop S m r).1 a d := by
  induction S generalizing m r with
  | nil => exact h
  | cons p rest ih =>
    obtain ⟨b, db⟩ := p
    exact ih _ _ (reconStep_covers_mono m r b db a d h)

theorem reconLoop_covers_all (S : List (String × Acct)) (m : AccountSet)
    (r : Report) (a : String) (d : Acct) (h : (a, d) ∈ S) :
    covers (reconLoop S m r).1 a d := by
  induction S generalizing m r with
  | nil => simp at h
  | cons p rest ih =>
    obtain ⟨b, db⟩ := p
    rcases List.mem_cons.mp h with heq | hmem
    · injection heq with h1 h2
      subst h1
      subst h2
      exact reconLoop_covers_mono rest _ _ a d (reconStep_covers_self m r a d)
    · exact ih _ _ hmem

theorem reconStep_covered_id (m : AccountSet) (r : Report) (a : String)
    (d : Acct) (h : covers m a d) :
    (reconStep m r a d).1 = m ∧ (reconStep m r a d).2.added = r.added ∧
      (reconStep m r a d).2.filled = r.filled := by
  obtain ⟨e, he, ha, hp⟩ := h
  have hc : containsKey m a = true := (containsKey_iff_lookupA a m).mpr ⟨e, he⟩
  have h1 : ¬(effVal ((lookupA a m).getD ⟨none, none⟩).address = "" ∧
      effVal d.address ≠ "") := by
    rw [he]
    rintro ⟨hz, hd⟩
    exact ha hd (by simpa using hz)
  have h2 : ¬(effVal ((lookupA a m).getD ⟨none, none⟩).privKey = "" ∧
      effVal d.privKey ≠ "") := by
    rw [he]
    rintro ⟨hz, hd⟩
    exact hp hd (by simpa using hz)
  simp [reconStep, hc, h1, h2]

theorem reconLoop_covered_id (S : List (String × Acct)) (m : AccountSet)
    (r : Report) (h : ∀ a d, (a, d) ∈ S → covers m a d) :
    (reconLoop S m r).1 = m ∧ (reconLoop S m r).2.added = r.added ∧
      (reconLoop S m r).2.filled = r.filled := by
  induction S generalizing r with
  | nil => exact ⟨rfl, rfl, rfl⟩
  | cons p rest ih =>
    obtain ⟨b, db⟩ := p
    have hb := reconStep_covered_id m r b db (h b db (by simp))
    have step : reconLoop ((b, db) :: rest) m r
        = reconLoop rest (reconStep m r b db).1 (reconStep m r b db).2 := rfl
    rw [step, hb.1]
    have := ih (reconStep m r b db).2 (fun a d hm => h a d (by simp [hm]))
    exact ⟨this.1, by rw [this.2.1, hb.2.1], by rw [this.2.2, hb.2.2]⟩

/-- C4: idempotent merge.  Reconciling a second time with the same source
against the result of the first run leaves the result map unchanged and
reports zero `added` and zero `filled` (the mismatch count is unrestricted,
since mismatch detection performs no mutation). -/
theorem c4_idempotent (S D : AccountSet) :
    (reconcile S (reconcile S D).1).1 = (reconcile S D).1 ∧
    (reconcile S (reconcile S D).1).2.added = 0 ∧
    (reconcile S (reconcile S D).1).2.filled = 0 := by
  have hcov : ∀ a d, (a, d) ∈ S → covers (reconcile S D).1 a d :=
    fun a d h => reconLoop_covers_all S D ⟨0, 0, 0⟩ a d h
  exact reconLoop_covered_id S (reconcile S D).1 ⟨0, 0, 0⟩ hcov

end ShelbyBot

/-! ## Additivity and fill accounting -/

namespace ShelbyBot

/-- Claim-side description of the destination entry after the fill phase of
one reconciliation iteration: each field that is blank in the destination
and non-blank in the source is replaced by the stripped source value. -/
def fillResult (e d : Acct) : Acct :=
  ⟨if effVal e.address = "" ∧ effVal d.address ≠ "" then
      some (effVal d.address) else e.address,
   if effVal e.privKey = "" ∧ effVal d.privKey ≠ "" then
      some (effVal d.privKey) else e.privKey⟩

theorem reconStep_report (m : AccountSet) (r : Report) (a : String)
    (d : Acct) (e : Acct) (he : lookupA a m = some e) :
    (reconStep m r a d).2 =
      { added := r.added,
        filled := r.filled
          + (if effVal e.address = "" ∧ effVal d.address ≠ "" then 1 else 0)
          + (if effVal e.privKey = "" ∧ effVal d.privKey ≠ "" then 1 else 0),
        mismatches := r.mismatches
          + (if effVal d.address ≠ "" ∧ effVal (fillResult e d).address ≠ "" ∧
                effVal d.address ≠ effVal (fillResult e d).address then 1 else 0)
          + (if effVal d.privKey ≠ "" ∧ effVal (fillResult e d).privKey ≠ "" ∧
                effVal d.privKey ≠ effVal (fillResult e d).privKey then 1 else 0) } := by
  have hc : containsKey m a = true := (containsKey_iff_lookupA a m).mpr ⟨e, he⟩
  by_cases h1 : effVal e.address = "" ∧ effVal d.address ≠ "" <;>
    by_cases h2 : effVal e.privKey = "" ∧ effVal d.privKey ≠ ""
  · have hm1 := lookupA_setAddr_self a (effVal d.address) m e he
    have hm2 := lookupA_setPk_self a (effVal d.privKey) _ _ hm1
    simp only [reconStep, hc, he, h1, h2, fillResult]
    simp [h1, h2, hm1, hm2]
    split_ifs <;> omega
  · have hm1 := lookupA_setAddr_self a (effVal d.address) m e he
    simp only [reconStep, hc, he, h1, h2, fillResult]
    simp [h1, h2, hm1]
    split_ifs <;> omega
  · have hm2 := lookupA_setPk_self a (effVal d.privKey) m e he
    simp only [reconStep, hc, he, h1, h2, fillResult]
    simp [h1, h2, hm2]
    split_ifs <;> omega
  · simp only [reconStep, hc, he, h1, h2, fillResult]
    simp [h1, h2, he]
    split_ifs <;> omega

end ShelbyBot

namespace ShelbyBot

/-- C3 (amended): additivity with fill accounting, under the code's
strip-based notion of empty/non-empty and stripped insertion.  Every source
alias ends up in the result; an alias absent from the destination is
inserted with both fields present, holding the source values stripped of
surrounding whitespace (an absent source field becomes the empty string),
and `added` is incremented; for an alias already present, each field blank
in the destination and non-blank in the source is set to the stripped
source value with `filled` incremented once per field; a mismatch is
counted per field exactly when the stripped source value and the stripped
post-fill destination value are both non-empty and differ; and because the
comparison re-reads the destination after filling, a field just filled
compares equal and is never counted as a mismatch. -/
theorem c3_additivity :
    (∀ (S D : AccountSet) (a : String) (d : Acct), (a, d) ∈ S →
      containsKey (reconcile S D).1 a = true) ∧
    (∀ (m : AccountSet) (r : Report) (a : String) (d : Acct),
      containsKey m a = false →
      reconStep m r a d =
        (m ++ [(a, ⟨some (effVal d.address), some (effVal d.privKey)⟩)],
         { r with added := r.added + 1 })) ∧
    (∀ (m : AccountSet) (r : Report) (a : String) (d : Acct) (e : Acct),
      lookupA a m = some e →
      lookupA a (reconStep m r a d).1 = some (fillResult e d) ∧
      (reconStep m r a d).2 =
        { added := r.added,
          filled := r.filled
            + (if effVal e.address = "" ∧ effVal d.address ≠ "" then 1 else 0)
            + (if effVal e.privKey = "" ∧ effVal d.privKey ≠ "" then 1 else 0),
          mismatches := r.mismatches
            + (if effVal d.address ≠ "" ∧ effVal (fillResult e d).address ≠ "" ∧
                  effVal d.address ≠ effVal (fillResult e d).address then 1 else 0)
            + (if effVal d.privKey ≠ "" ∧ effVal (fillResult e d).privKey ≠ "" ∧
                  effVal d.privKey ≠ effVal (fillResult e d).privKey then 1 else 0) }) ∧
    (∀ d e : Acct,
      (effVal e.address = "" → effVal d.address ≠ "" →
        effVal d.address = effVal (fillResult e d).address) ∧
      (effVal e.privKey = "" → effVal d.privKey ≠ "" →
        effVal d.privKey = effVal (fillResult e d).privKey)) := by
  refine ⟨?_, reconStep_absent, ?_, ?_⟩
  · intro S D a d h
    exact reconLoop_mem_containsKey S D ⟨0, 0, 0⟩ a d h
  · intro m r a d e he
    exact ⟨reconStep_lookup_self m r a d e he, reconStep_report m r a d e he⟩
  · intro d e
    constructor
    · intro h1 h2
      rw [fillResult]
      simp [h1, h2, effVal_effVal]
    · intro h1 h2
      rw [fillResult]
      simp [h1, h2, effVal_effVal]

/-- Witness for C3: an alias absent from the destination is inserted with
the stripped source values and counted in `added`; a blank destination
field is filled; a filled field is not counted as a mismatch. -/
theorem c3_additivity_witness :
    containsKey (reconcile [("a", ⟨some " x ", some "k"⟩)] []).1 "a" = true ∧
    reconStep [] ⟨0, 0, 0⟩ "a" ⟨some " x ", some "k"⟩ =
      ([("a", ⟨some "x", some "k"⟩)], ⟨1, 0, 0⟩) ∧
    lookupA "b" (reconStep [("b", ⟨none, some "kD"⟩)] ⟨0, 0, 0⟩ "b"
        ⟨some "0xS", none⟩).1 = some (fillResult ⟨none, some "kD"⟩ ⟨some "0xS", none⟩) :=
  ⟨c3_additivity.1 [("a", ⟨some " x ", some "k"⟩)] [] "a" ⟨some " x ", some "k"⟩
      (by decide),
   by
    have h := c3_additivity.2.1 [] ⟨0, 0, 0⟩ "a" ⟨some " x ", some "k"⟩ (by decide)
    rw [h]
    decide,
   (c3_additivity.2.2.1 [("b", ⟨none, some "kD"⟩)] ⟨0, 0, 0⟩ "b"
      ⟨some "0xS", none⟩ ⟨none, some "kD"⟩ (by decide)).1⟩

/-- Counterexample to C3 as stated: insertion is not verbatim — the code
inserts the stripped source values (and materialises both fields), so a
source address `" x"` is stored as `"x"`. -/
theorem c3_counterexample :
    lookupA "a" (reconcile [("a", ⟨some " x", some "k"⟩)] []).1
      = some ⟨some "x", some "k"⟩ ∧
    (⟨some "x", some "k"⟩ : Acct) ≠ ⟨some " x", some "k"⟩ := ⟨by decide, by decide⟩

end ShelbyBot

/-! ## String order lemmas for the serializer -/

namespace ShelbyBot

theorem char_toNat_inj (a b : Char) (h : a.toNat = b.toNat) : a = b :=
  Char.ext (UInt32.ext h)

theorem pyLe_refl (a : List Char) : pyLe a a = true := by
  induction a with
  | nil => rfl
  | cons x xs ih => simp [pyLe, ih]

theorem pyLe_total (a b : List Char) : pyLe a b = true ∨ pyLe b a = true := by
  induction a generalizing b with
  | nil => left; rfl
  | cons x xs ih =>
    cases b with
    | nil => right; rfl
    | cons y ys =>
      by_cases hxy : x = y
      · subst hxy
        rcases ih ys with h | h
        · left; simp [pyLe, h]
        · right; simp [pyLe, h]
      · have hn : x.toNat ≠ y.toNat := fun h => hxy (char_toNat_inj x y h)
        rcases Nat.lt_or_ge x.toNat y.toNat with h | h
        · left; simp [pyLe, hxy, h]
        · right
          have hyx : y ≠ x := fun hh => hxy hh.symm
          have : y.toNat < x.toNat := lt_of_le_of_ne h (fun hh => hn hh.symm)
          simp [pyLe, hyx, this]

theorem pyLe_trans (a b c : List Char) (h1 : pyLe a b = true)
    (h2 : pyLe b c = true) : pyLe a c = true := by
  induction a generalizing b c with
  | nil => rfl
  | cons x xs ih =>
    cases b with
    | nil => simp [pyLe] at h1
    | cons y ys =>
      cases c with
      | nil => simp [pyLe] at h2
      | cons z zs =>
        by_cases hxy : x = y <;> by_cases hyz : y = z
        · subst hxy; subst hyz
          simp only [pyLe, if_pos rfl] at h1 h2 ⊢
          exact ih ys zs h1 h2
        · subst hxy
          simp only [pyLe, if_pos rfl, if_neg hyz] at h2 ⊢
          exact h2
        · subst hyz
          simp only [pyLe, if_pos rfl, if_neg hxy] at h1 ⊢
          exact h1
        · simp only [pyLe, if_neg hxy, if_neg hyz, decide_eq_true_eq] at h1 h2
          have hxz : x ≠ z := by
            intro hh
            subst hh
            exact Nat.lt_irrefl _ (Nat.lt_trans h1 h2)
          simp only [pyLe, if_neg hxz, decide_eq_true_eq]
          exact Nat.lt_trans h1 h2

theorem pyLe_antisymm (a b : List Char) (h1 : pyLe a b = true)
    (h2 : pyLe b a = true) : a = b := by
  induction a generalizing b with
  | nil =>
    cases b with
    | nil => rfl
    | cons y ys => simp [pyLe] at h2
  | cons x xs ih =>
    cases b with
    | nil => simp [pyLe] at h1
    | cons y ys =>
      by_cases hxy : x = y
      · subst hxy
        simp only [pyLe, if_pos rfl] at h1 h2
        rw [ih ys h1 h2]
      · simp only [pyLe, if_neg hxy, decide_eq_true_eq] at h1
        simp only [pyLe, if_neg (fun hh => hxy (hh : y = x).symm),
          decide_eq_true_eq] at h2
        exact absurd (Nat.lt_trans h1 h2) (Nat.lt_irrefl _)

instance : IsTotal String keyLe :=
  ⟨fun a b => pyLe_total a.data b.data⟩

instance : IsTrans String keyLe :=
  ⟨fun a b c h1 h2 => pyLe_trans a.data b.data c.data h1 h2⟩

instance : IsAntisymm String keyLe :=
  ⟨fun a b h1 h2 => String.ext (pyLe_antisymm a.data b.data h1 h2)⟩

instance : IsRefl String keyLe := ⟨fun a => pyLe_refl a.data⟩

end ShelbyBot

/-! ## Serializer determinism and canonical form -/

namespace ShelbyBot

theorem perm_lookupA (m1 m2 : AccountSet) (h : m1.Perm m2)
    (hn : (m1.map Prod.fst).Nodup) (a : String) :
    lookupA a m1 = lookupA a m2 := by
  induction h with
  | nil => rfl
  | cons x h ih =>
    obtain ⟨k, v⟩ := x
    simp only [List.map_cons, List.nodup_cons] at hn
    simp only [lookupA]
    by_cases hk : k = a
    · simp [hk]
    · simp [hk, ih hn.2]
  | swap x y l =>
    obtain ⟨k1, v1⟩ := x
    obtain ⟨k2, v2⟩ := y
    simp only [List.map_cons, List.nodup_cons, List.mem_cons] at hn
    have hne : k2 ≠ k1 := fun hh => hn.1 (Or.inl hh)
    simp only [lookupA]
    by_cases h1 : k1 = a <;> by_cases h2 : k2 = a
    · exact absurd (h2.trans h1.symm) hne
    · simp [h1, h2]
    · simp [h1, h2]
    · simp [h1, h2]
  | trans h1 h2 ih1 ih2 =>
    rw [ih1 hn, ih2 ((h1.map Prod.fst).nodup_iff.mp hn)]

theorem sortKeys_perm_eq (m1 m2 : AccountSet) (h : m1.Perm m2) :
    sortKeys m1 = sortKeys m2 :=
  List.eq_of_perm_of_sorted
    ((List.perm_insertionSort keyLe _).trans
      ((h.map Prod.fst).trans (List.perm_insertionSort keyLe _).symm))
    (List.sorted_insertionSort keyLe _)
    (List.sorted_insertionSort keyLe _)

/-- C9: serializer determinism and canonical form.  Serialization is
invariant under permutation of the account map (insertion order does not
matter as long as keys are unique, as in a Python dictionary); the output
starts with the fixed warning comment and then `accounts:`; the emitted
alias order is sorted (and is exactly `sortKeys`, the sorted key list); and
each alias block consists of the two-space alias header, then — omitted
when the stripped field value is empty or the field absent — the
four-space address line with the value wrapped in double quotes, then the
four-space private-key line with the value unquoted. -/
theorem c9_serializer_canonical :
    (∀ m1 m2 : AccountSet, (m1.map Prod.fst).Nodup → m1.Perm m2 →
      serialize m1 = serialize m2) ∧
    (∀ m : AccountSet, (serializeLines m).take 2 =
      [headerComment, "accounts:".data]) ∧
    (∀ m : AccountSet, List.Sorted keyLe (sortKeys m)) ∧
    (∀ m : AccountSet, serializeLines m =
      headerComment :: "accounts:".data :: (sortKeys m).flatMap (blockOf m)) ∧
    (∀ (m : AccountSet) (a : String) (e : Acct), lookupA a m = some e →
      blockOf m a =
        [' ' :: ' ' :: (a.data ++ [':'])] ++
        (if (stripWS (e.address.getD "").data).isEmpty then [] else
          ["    address: \"".data ++ stripWS (e.address.getD "").data ++ ['"']]) ++
        (if (stripWS (e.privKey.getD "").data).isEmpty then [] else
          ["    private_key: ".data ++ stripWS (e.privKey.getD "").data])) := by
  refine ⟨?_, fun m => rfl, fun m => List.sorted_insertionSort keyLe _,
    fun m => rfl, ?_⟩
  · intro m1 m2 hn hp
    have hb : blockOf m1 = blockOf m2 := by
      funext a
      unfold blockOf
      rw [perm_lookupA m1 m2 hp hn a]
    unfold serialize serializeLines
    rw [sortKeys_perm_eq m1 m2 hp, hb]
  · intro m a e he
    simp [blockOf, he]

/-- Witness for C9: two insertion orders of the same two-account map
serialize to the same text, and a concrete block has the quoted address
line and unquoted private-key line. -/
theorem c9_serializer_canonical_witness :
    serialize [("b", ⟨some "0xB", none⟩), ("a", ⟨some "0xA", some "k"⟩)] =
      serialize [("a", ⟨some "0xA", some "k"⟩), ("b", ⟨some "0xB", none⟩)] ∧
    blockOf [("a", ⟨some "0xA", some "k"⟩)] "a" =
      ["  a:".data, "    address: \"0xA\"".data, "    private_key: k".data] :=
  ⟨c9_serializer_canonical.1 [("b", ⟨some "0xB", none⟩), ("a", ⟨some "0xA", some "k"⟩)]
      [("a", ⟨some "0xA", some "k"⟩), ("b", ⟨some "0xB", none⟩)]
      (by decide) (List.Perm.swap _ _ _),
   by
    have h := c9_serializer_canonical.2.2.2.2 [("a", ⟨some "0xA", some "k"⟩)] "a"
      ⟨some "0xA", some "k"⟩ (by decide)
    rw [h]
    decide⟩

end ShelbyBot

/-! ## Round-trip: line-splitting lemmas -/

namespace ShelbyBot

theorem string_mk_data : ∀ a : String, String.mk a.data = a
  | ⟨_⟩ => rfl

theorem pySpace_of_lineBreak (c : Char) (h : lineBreakChar c = true) :
    pySpace c = true := by
  have hc : c ∈ lineBreakChars := by
    simpa [lineBreakChar] using h
  have hall : ∀ x ∈ lineBreakChars, pySpace x = true := by decide
  exact hall c hc

theorem lineBreak_eq_false_of_space (c : Char) (h : pySpace c = false) :
    lineBreakChar c = false := by
  cases hb : lineBreakChar c
  · rfl
  · rw [pySpace_of_lineBreak c hb] at h
    exact absurd h (by simp)

theorem splitLines_cons_not_break (c : Char) (cs : List Char)
    (hc : lineBreakChar c = false) :
    splitLines (c :: cs) =
      match splitLines cs with
      | [] => [[c]]
      | l :: ls => (c :: l) :: ls := by
  have hcr : c ≠ '\r' := by
    intro h
    subst h
    exact absurd hc (by decide)
  cases cs with
  | nil => simp [splitLines, hc]
  | cons d ds =>
    rw [splitLines]
    · simp [hc]
    · intro h1 h2 h3
      exact absurd h2 hcr
end ShelbyBot

namespace ShelbyBot

theorem splitLines_newline (rest : List Char) :
    splitLines ('\n' :: rest) = [] :: splitLines rest := rfl

theorem splitLines_append_line (l rest : List Char)
    (h : ∀ c ∈ l, lineBreakChar c = false) :
    splitLines (l ++ '\n' :: rest) = l :: splitLines rest := by
  induction l with
  | nil => rfl
  | cons c cs ih =>
    have hc := h c (by simp)
    rw [List.cons_append, splitLines_cons_not_break c _ hc,
      ih (fun x hx => h x (by simp [hx]))]

theorem splitLines_flatMap (L : List (List Char))
    (h : ∀ l ∈ L, ∀ c ∈ l, lineBreakChar c = false) :
    splitLines (L.flatMap (fun l => l ++ ['\n'])) = L := by
  induction L with
  | nil => rfl
  | cons l ls ih =>
    rw [List.flatMap_cons, List.append_assoc, List.singleton_append,
      splitLines_append_line l _ (h l (by simp)),
      ih (fun x hx c hc => h x (by simp [hx]) c hc)]

theorem mem_stripWS (l : List Char) (c : Char) (h : c ∈ stripWS l) : c ∈ l := by
  unfold stripWS at h
  rw [List.mem_reverse] at h
  have h2 := List.dropWhile_sublist (l := (l.dropWhile pySpace).reverse) pySpace |>.subset h
  rw [List.mem_reverse] at h2
  exact (List.dropWhile_sublist pySpace).subset h2

theorem containsKey_iff_mem_keys (m : AccountSet) (a : String) :
    containsKey m a = true ↔ a ∈ m.map Prod.fst := by
  induction m with
  | nil => simp [containsKey]
  | cons p t ih =>
    obtain ⟨k, v⟩ := p
    by_cases hk : k = a
    · simp [containsKey, hk, ih]
    · simp only [containsKey, hk, decide_eq_true_eq, List.map_cons, List.mem_cons,
        Bool.or_eq_true, decide_eq_true_eq, ih]
      constructor
      · rintro (h | h)
        · exact h.elim
        · exact Or.inr h
      · rintro (h | h)
        · exact absurd h.symm hk
        · exact Or.inr h

theorem lookupA_mem (m : AccountSet) (a : String) (e : Acct)
    (h : lookupA a m = some e) : (a, e) ∈ m := by
  induction m with
  | nil => simp [lookupA] at h
  | cons p t ih =>
    obtain ⟨k, v⟩ := p
    by_cases hk : k = a
    · simp [lookupA, hk] at h
      simp [hk, h]
    · simp [lookupA, hk] at h
      simp [ih h]

theorem takeWhile_eq_self_of_all (p : Char → Bool) (l : List Char)
    (h : ∀ c ∈ l, p c = true) : l.takeWhile p = l := by
  induction l with
  | nil => rfl
  | cons c cs ih =>
    rw [List.takeWhile_cons_of_pos (h c (by simp)),
      ih (fun x hx => h x (by simp [hx]))]

theorem stripWS_cons_space (c : Char) (l : List Char) (h : pySpace c = true) :
    stripWS (c :: l) = stripWS l := by
  unfold stripWS
  rw [List.dropWhile_cons_of_pos h]

end ShelbyBot

/-! ## Round-trip: validity and block-line lemmas -/

namespace ShelbyBot

/-- Validity of one optional field value, following the claim: when
present, the value is a non-empty string with no leading or trailing
whitespace, no embedded line-break characters, and not surrounded by a
matching pair of quote characters. -/
def validField (v : Option String) : Prop :=
  ∀ s, v = some s →
    s.data ≠ [] ∧
    (∀ c, s.data.head? = some c → pySpace c = false) ∧
    (∀ c, s.data.getLast? = some c → pySpace c = false) ∧
    (∀ c ∈ s.data, lineBreakChar c = false) ∧
    ¬(s.data.head? = some '"' ∧ s.data.getLast? = some '"') ∧
    ¬(s.data.head? = some '\'' ∧ s.data.getLast? = some '\'')

/-- Validity of an alias: a non-empty token of `[A-Za-z0-9_.-]`. -/
def validAlias (a : String) : Prop := a.data ≠ [] ∧ a.data.all tokChar = true

/-- Validity of an account, with the two amendments the code forces: at
least one field is present, and a present private key is a single
non-whitespace token. -/
def validAcct (d : Acct) : Prop :=
  validField d.address ∧ validField d.privKey ∧
  (d.address ≠ none ∨ d.privKey ≠ none) ∧
  (∀ s, d.privKey = some s → ∀ c ∈ s.data, pySpace c = false)

/-- Validity of an account set: unique aliases, each entry valid. -/
def validX (X : AccountSet) : Prop :=
  (X.map Prod.fst).Nodup ∧ ∀ p ∈ X, validAlias p.1 ∧ validAcct p.2

theorem matchTerm_space (l : List Char) : matchTerm (' ' :: l) = false := by
  simp [matchTerm]

theorem matchAlias_header (name : List Char) (h1 : name ≠ [])
    (h2 : name.all tokChar = true) :
    matchAlias (' ' :: ' ' :: (name ++ [':'])) = some name := by
  have := takeWhile_tok_append name [':'] h2
    (by intro c hc; simp at hc; subst hc; decide)
  simp [matchAlias, this.1, this.2, List.isEmpty_iff, h1, dropWS,
    List.dropWhile, show pySpace ':' = false from by decide,
    show pySpace ' ' = true from by decide]

theorem matchAlias_indent4 (r : List Char) :
    matchAlias (' ' :: ' ' :: ' ' :: r) = none := by
  simp [matchAlias, List.takeWhile, show tokChar ' ' = false from by decide,
    show pySpace ' ' = true from by decide]

theorem getLast?_cons_concat (c : Char) (w : List Char) (d : Char) :
    (c :: (w ++ [d])).getLast? = some d := by
  rw [show c :: (w ++ [d]) = (c :: w) ++ [d] from rfl, List.getLast?_concat]

theorem stripWS_wrapped (c : Char) (w : List Char) (d : Char)
    (h1 : pySpace c = false) (h2 : pySpace d = false) :
    stripWS (c :: (w ++ [d])) = c :: (w ++ [d]) := by
  apply stripWS_eq_self_of_ends
  · intro x hx
    simp at hx
    rwa [hx] at h1
  · intro x hx
    rw [getLast?_cons_concat] at hx
    simp at hx
    rwa [hx] at h2

theorem matchAddr_line (w : List Char) :
    matchAddr ("    address: \"".data ++ (w ++ ['"'])) =
      some ('"' :: (w ++ ['"'])) := by
  have hre : "    address: \"".data ++ (w ++ ['"'])
      = ' ' :: ' ' :: ' ' :: ' ' :: 'a' :: 'd' :: 'd' :: 'r' :: 'e' :: 's' ::
        's' :: ':' :: ' ' :: '"' :: (w ++ ['"']) := rfl
  rw [hre]
  have hs : stripWS (' ' :: '"' :: (w ++ ['"'])) = '"' :: (w ++ ['"']) := by
    rw [stripWS_cons_space ' ' _ (by decide)]
    exact stripWS_wrapped '"' w '"' (by decide) (by decide)
  simp [matchAddr, dropLit, dropWS, List.dropWhile, hs,
    show pySpace ' ' = true from by decide,
    show pySpace ':' = false from by decide,
    show pySpace '"' = false from by decide]

theorem matchAddr_not_pk (r : List Char) :
    matchAddr (' ' :: ' ' :: ' ' :: ' ' :: 'p' :: r) = none := by
  simp [matchAddr, dropLit, show pySpace ' ' = true from by decide]

theorem matchPk_line (w : List Char) (hne : w ≠ [])
    (hw : ∀ c ∈ w, pySpace c = false) :
    matchPk ("    private_key: ".data ++ w) = some w := by
  have hre : "    private_key: ".data ++ w
      = ' ' :: ' ' :: ' ' :: ' ' :: 'p' :: 'r' :: 'i' :: 'v' :: 'a' :: 't' ::
        'e' :: '_' :: 'k' :: 'e' :: 'y' :: ':' :: ' ' :: w := rfl
  rw [hre]
  cases w with
  | nil => exact absurd rfl hne
  | cons c cs =>
    have hc : pySpace c = false := hw c (by simp)
    have hdw : List.dropWhile pySpace (c :: cs) = c :: cs :=
      dropWS_eq_self (c :: cs) hw
    have htw : List.takeWhile (fun x => !pySpace x) (c :: cs) = c :: cs :=
      takeWhile_eq_self_of_all _ (c :: cs) (by intro x hx; simp [hw x hx])
    have h0 : List.dropWhile pySpace (':' :: ' ' :: c :: cs)
        = ':' :: ' ' :: c :: cs := List.dropWhile_cons_of_neg (by decide)
    have h1 : List.dropWhile pySpace (' ' :: c :: cs) = c :: cs := by
      rw [List.dropWhile_cons_of_pos (by decide)]
      exact hdw
    simp only [matchPk, dropLit, dropWS,
      show pySpace ' ' = true from by decide, if_true, if_false]
    simp [h0, h1, htw, hc, List.drop_length]

theorem stripQuotes_wrapped (w : List Char) :
    stripQuotes ('"' :: (w ++ ['"'])) = w := by
  have hs : stripWS ('"' :: (w ++ ['"'])) = '"' :: (w ++ ['"']) :=
    stripWS_wrapped '"' w '"' (by decide) (by decide)
  have hld : ('"' :: (w ++ ['"'])).getLast?.getD 'x' = '"' := by
    rw [getLast?_cons_concat]
    rfl
  simp [stripQuotes, hs, hld, List.dropLast_concat]

end ShelbyBot

namespace ShelbyBot

/-- The alias-header line emitted for alias `a`. -/
def aliasLine (a : String) : List Char := ' ' :: ' ' :: (a.data ++ [':'])

/-- The address line emitted for a stripped value `w`. -/
def addrLine (w : List Char) : List Char :=
  "    address: \"".data ++ (w ++ ['"'])

/-- The private-key line emitted for a stripped value `w`. -/
def pkLine (w : List Char) : List Char := "    private_key: ".data ++ w

theorem blockOf_eq (X : AccountSet) (a : String) (e : Acct)
    (hl : lookupA a X = some e) :
    blockOf X a =
      [aliasLine a] ++
      (if (stripWS (e.address.getD "").data).isEmpty then []
        else [addrLine (stripWS (e.address.getD "").data)]) ++
      (if (stripWS (e.privKey.getD "").data).isEmpty then []
        else [pkLine (stripWS (e.privKey.getD "").data)]) := by
  rw [blockOf, hl]
  simp only [Option.getD_some, aliasLine, addrLine, pkLine, List.append_assoc]

theorem stripQuotes_token (w : List Char) (hs : stripWS w = w)
    (hq1 : ¬(w.head? = some '"' ∧ w.getLast? = some '"'))
    (hq2 : ¬(w.head? = some '\'' ∧ w.getLast? = some '\'')) :
    stripQuotes w = w := by
  unfold stripQuotes
  rw [hs]
  cases w with
  | nil => rfl
  | cons c cs =>
    cases hgl : (c :: cs).getLast? with
    | none => simp at hgl
    | some g =>
      have hld : (c :: cs).getLastD 'x' = g := by
        rw [List.getLastD_eq_getLast?, hgl]
        rfl
      have hb1 : ¬(c = '"' ∧ g = '"') := by
        rintro ⟨rfl, rfl⟩
        exact hq1 ⟨rfl, hgl⟩
      have hb2 : ¬(c = '\'' ∧ g = '\'') := by
        rintro ⟨rfl, rfl⟩
        exact hq2 ⟨rfl, hgl⟩
      have e1 : (decide (c = '"') && decide ((c :: cs).getLastD 'x' = '"')) = false := by
        rw [hld]
        by_cases h1 : c = '"'
        · have h2 : g ≠ '"' := fun hh => hb1 ⟨h1, hh⟩
          simp [h2]
        · simp [h1]
      have e2 : (decide (c = '\'') && decide ((c :: cs).getLastD 'x' = '\'')) = false := by
        rw [hld]
        by_cases h3 : c = '\''
        · have h4 : g ≠ '\'' := fun hh => hb2 ⟨h3, hh⟩
          simp [h4]
        · simp [h3]
      simp [e1, e2]
      intro hcond
      rcases hcond with ⟨h1, h2⟩ | ⟨h3, h4⟩
      · rw [hgl] at h2
        simp at h2
        exact absurd ⟨h1, h2⟩ hb1
      · rw [hgl] at h4
        simp at h4
        exact absurd ⟨h3, h4⟩ hb2

theorem setAddr_append_fresh (acc : AccountSet) (a : String) (d : Acct)
    (v : String) (h : containsKey acc a = false) :
    setAddr (acc ++ [(a, d)]) a v = acc ++ [(a, { d with address := some v })] := by
  induction acc with
  | nil => simp [setAddr]
  | cons p t ih =>
    obtain ⟨k, w⟩ := p
    simp only [containsKey, Bool.or_eq_false_iff, decide_eq_false_iff_not] at h
    simp [setAddr, h.1, ih h.2]

theorem setPk_append_fresh (acc : AccountSet) (a : String) (d : Acct)
    (v : String) (h : containsKey acc a = false) :
    setPk (acc ++ [(a, d)]) a v = acc ++ [(a, { d with privKey := some v })] := by
  induction acc with
  | nil => simp [setPk]
  | cons p t ih =>
    obtain ⟨k, w⟩ := p
    simp only [containsKey, Bool.or_eq_false_iff, decide_eq_false_iff_not] at h
    simp [setPk, h.1, ih h.2]

end ShelbyBot

namespace ShelbyBot

theorem matchTerm_aliasLine (a : String) : matchTerm (aliasLine a) = false :=
  matchTerm_space _

theorem matchTerm_addrLine (w : List Char) : matchTerm (addrLine w) = false :=
  matchTerm_space _

theorem matchTerm_pkLine (w : List Char) : matchTerm (pkLine w) = false :=
  matchTerm_space _

theorem matchAlias_aliasLine (a : String) (h1 : a.data ≠ [])
    (h2 : a.data.all tokChar = true) :
    matchAlias (aliasLine a) = some a.data :=
  matchAlias_header a.data h1 h2

theorem matchAlias_addrLine (w : List Char) : matchAlias (addrLine w) = none :=
  matchAlias_indent4 _

theorem matchAlias_pkLine (w : List Char) : matchAlias (pkLine w) = none :=
  matchAlias_indent4 _

theorem matchAddr_addrLine (w : List Char) :
    matchAddr (addrLine w) = some ('"' :: (w ++ ['"'])) :=
  matchAddr_line w

theorem matchAddr_pkLine (w : List Char) : matchAddr (pkLine w) = none :=
  matchAddr_not_pk _

theorem scan_cons_alias (l : List Char) (ls : List (List Char))
    (acc : AccountSet) (cur : String) (name : List Char)
    (ht : matchTerm l = false) (ha : matchAlias l = some name)
    (hc : containsKey acc ⟨name⟩ = false) :
    scan (l :: ls) acc cur =
      scan ls (acc ++ [(⟨name⟩, ⟨none, none⟩)]) ⟨name⟩ := by
  simp [scan, ht, ha, hc]

theorem scan_cons_addr (l : List Char) (ls : List (List Char))
    (acc : AccountSet) (cur : String) (g : List Char)
    (ht : matchTerm l = false) (ha : matchAlias l = none) (hc : cur ≠ "")
    (hm : matchAddr l = some g) :
    scan (l :: ls) acc cur = scan ls (setAddr acc cur ⟨stripQuotes g⟩) cur := by
  simp [scan, ht, ha, hc, hm]

theorem scan_cons_pk (l : List Char) (ls : List (List Char))
    (acc : AccountSet) (cur : String) (g : List Char)
    (ht : matchTerm l = false) (ha : matchAlias l = none) (hc : cur ≠ "")
    (hm : matchAddr l = none) (hp : matchPk l = some g) :
    scan (l :: ls) acc cur = scan ls (setPk acc cur ⟨stripQuotes g⟩) cur := by
  simp [scan, ht, ha, hc, hm, hp]

theorem scan_block (X : AccountSet) (a : String) (e : Acct) (acc : AccountSet)
    (cur : String) (rest : List (List Char)) (hva : validAlias a)
    (hve : validAcct e) (hl : lookupA a X = some e)
    (hnc : containsKey acc a = false) :
    scan (blockOf X a ++ rest) acc cur = scan rest (acc ++ [(a, e)]) a := by
  obtain ⟨hvfA, hvfP, hone, htok⟩ := hve
  have hane : a ≠ "" := by
    intro h
    exact hva.1 (congrArg String.data h)
  have hmka : String.mk a.data = a := string_mk_data a
  rw [blockOf_eq X a e hl]
  obtain ⟨ea, ep⟩ := e
  cases ea with
  | none =>
    cases ep with
    | none =>
      simp only [Option.getD_none, show ("" : String).data = [] from rfl,
        show stripWS [] = [] from rfl, List.isEmpty_nil, if_true,
        List.append_nil, List.singleton_append, List.nil_append]
      rw [scan_cons_alias (aliasLine a) rest acc cur a.data
        (matchTerm_aliasLine a) (matchAlias_aliasLine a hva.1 hva.2)
        (by rwa [hmka]), hmka]
    | some k =>
      obtain ⟨hkne, hkh, hkl, hkb, hkq1, hkq2⟩ := hvfP k rfl
      have htk : ∀ c ∈ k.data, pySpace c = false := htok k rfl
      have hsk : stripWS k.data = k.data := stripWS_eq_self_of_ends _ hkh hkl
      have hkE : k.data.isEmpty = false := by
        cases hk : k.data with
        | nil => exact absurd hk hkne
        | cons _ _ => rfl
      simp only [Option.getD_none, Option.getD_some,
        show ("" : String).data = [] from rfl,
        show stripWS [] = [] from rfl, List.isEmpty_nil, if_true, hsk,
        hkE, Bool.false_eq_true, ite_false, List.nil_append,
        List.singleton_append, List.cons_append]
      rw [scan_cons_alias (aliasLine a) _ acc cur a.data
        (matchTerm_aliasLine a) (matchAlias_aliasLine a hva.1 hva.2)
        (by rwa [hmka]), hmka]
      rw [scan_cons_pk (pkLine k.data) _ _ a k.data (matchTerm_pkLine _)
        (matchAlias_pkLine _) hane (matchAddr_pkLine _)
        (matchPk_line k.data hkne htk)]
      rw [stripQuotes_token k.data hsk hkq1 hkq2, string_mk_data k,
        setPk_append_fresh acc a ⟨none, none⟩ k hnc]
  | some v =>
    obtain ⟨hvne, hvh, hvl, hvb, hvq1, hvq2⟩ := hvfA v rfl
    have hsv : stripWS v.data = v.data := stripWS_eq_self_of_ends _ hvh hvl
    cases ep with
    | none =>
      have hvE : v.data.isEmpty = false := by
        cases hk : v.data with
        | nil => exact absurd hk hvne
        | cons _ _ => rfl
      simp only [Option.getD_none, Option.getD_some,
        show ("" : String).data = [] from rfl,
        show stripWS [] = [] from rfl, List.isEmpty_nil, if_true, hsv,
        hvE, Bool.false_eq_true, ite_false, List.append_nil,
        List.singleton_append, List.cons_append]
      rw [scan_cons_alias (aliasLine a) _ acc cur a.data
        (matchTerm_aliasLine a) (matchAlias_aliasLine a hva.1 hva.2)
        (by rwa [hmka]), hmka]
      simp only [List.nil_append, List.singleton_append, List.cons_append]
      rw [scan_cons_addr (addrLine v.data) _ _ a ('"' :: (v.data ++ ['"']))
        (matchTerm_addrLine _) (matchAlias_addrLine _) hane
        (matchAddr_addrLine v.data)]
      rw [stripQuotes_wrapped v.data, string_mk_data v,
        setAddr_append_fresh acc a ⟨none, none⟩ v hnc]
    | some k =>
      obtain ⟨hkne, hkh, hkl, hkb, hkq1, hkq2⟩ := hvfP k rfl
      have htk : ∀ c ∈ k.data, pySpace c = false := htok k rfl
      have hsk : stripWS k.data = k.data := stripWS_eq_self_of_ends _ hkh hkl
      have hvE : v.data.isEmpty = false := by
        cases hk : v.data with
        | nil => exact absurd hk hvne
        | cons _ _ => rfl
      have hkE : k.data.isEmpty = false := by
        cases hk : k.data with
        | nil => exact absurd hk hkne
        | cons _ _ => rfl
      simp only [Option.getD_some, hsv, hsk, hvE, hkE, Bool.false_eq_true,
        ite_false, List.singleton_append, List.cons_append]
      rw [scan_cons_alias (aliasLine a) _ acc cur a.data
        (matchTerm_aliasLine a) (matchAlias_aliasLine a hva.1 hva.2)
        (by rwa [hmka]), hmka]
      simp only [List.nil_append, List.singleton_append, List.cons_append]
      rw [scan_cons_addr (addrLine v.data) _ _ a ('"' :: (v.data ++ ['"']))
        (matchTerm_addrLine _) (matchAlias_addrLine _) hane
        (matchAddr_addrLine v.data)]
      rw [stripQuotes_wrapped v.data, string_mk_data v,
        setAddr_append_fresh acc a ⟨none, none⟩ v hnc]
      rw [scan_cons_pk (pkLine k.data) _ _ a k.data (matchTerm_pkLine _)
        (matchAlias_pkLine _) hane (matchAddr_pkLine _)
        (matchPk_line k.data hkne htk)]
      rw [stripQuotes_token k.data hsk hkq1 hkq2, string_mk_data k,
        setPk_append_fresh acc a ⟨some v, none⟩ k hnc]

end ShelbyBot

namespace ShelbyBot

theorem scan_blocks (ks : List String) (X : AccountSet) (acc : AccountSet)
    (cur : String)
    (h : ∀ a ∈ ks, validAlias a ∧ ∃ e, lookupA a X = some e ∧ validAcct e)
    (hnc : ∀ a ∈ ks, containsKey acc a = false) (hnd : ks.Nodup) :
    scan (ks.flatMap (blockOf X)) acc cur
      = acc ++ ks.map (fun a => (a, (lookupA a X).getD ⟨none, none⟩)) := by
  induction ks generalizing acc cur with
  | nil => simp [scan]
  | cons a ks' ih =>
    obtain ⟨hva, e, hle, hve⟩ := h a (by simp)
    simp only [List.nodup_cons] at hnd
    rw [List.flatMap_cons,
      scan_block X a e acc cur _ hva hve hle (hnc a (by simp))]
    rw [ih (acc ++ [(a, e)]) a (fun b hb => h b (by simp [hb])) ?hnc2 hnd.2]
    · rw [List.map_cons, hle]
      simp [List.append_assoc]
    case hnc2 =>
      intro b hb
      rw [containsKey_append, hnc b (by simp [hb]), Bool.false_or]
      have hba : a ≠ b := fun hh => hnd.1 (hh ▸ hb)
      simp [containsKey, hba]

theorem cleanup_eq_self (m : AccountSet)
    (h : ∀ p ∈ m,
      (truthy (p.2.address.getD "") || truthy (p.2.privKey.getD "")) = true) :
    cleanup m = m :=
  List.filter_eq_self.mpr h

theorem serializeLines_no_break (X : AccountSet) (hX : validX X) :
    ∀ l ∈ serializeLines X, ∀ c ∈ l, lineBreakChar c = false := by
  intro l hl
  rw [serializeLines] at hl
  rcases List.mem_cons.mp hl with rfl | hl
  · decide
  rcases List.mem_cons.mp hl with rfl | hl
  · decide
  obtain ⟨a, ha, hb⟩ := List.mem_flatMap.mp hl
  have haX : a ∈ X.map Prod.fst :=
    (List.perm_insertionSort keyLe _).mem_iff.mp ha
  obtain ⟨e, hle⟩ := (containsKey_iff_lookupA a X).mp
    ((containsKey_iff_mem_keys X a).mpr haX)
  have hent := hX.2 (a, e) (lookupA_mem X a e hle)
  have hva : validAlias a := hent.1
  have hvfA : validField e.address := hent.2.1
  have hvfP : validField e.privKey := hent.2.2.1
  rw [blockOf_eq X a e hle] at hb
  rcases List.mem_append.mp hb with hb | hb
  · rcases List.mem_append.mp hb with hb | hb
    · simp only [List.mem_singleton] at hb
      subst hb
      intro c hc
      simp only [aliasLine, List.mem_cons, List.mem_append,
        List.mem_singleton] at hc
      rcases hc with rfl | rfl | hc | rfl | hc
      · decide
      · decide
      · exact lineBreak_eq_false_of_space c
          (tokChar_not_pySpace c (by
            have := hva.2
            rw [List.all_eq_true] at this
            exact this c hc))
      · decide
      · simp at hc
    · by_cases hep : (stripWS (e.address.getD "").data).isEmpty = true
      · simp [hep] at hb
      · simp only [hep, Bool.false_eq_true, ite_false,
          List.mem_singleton] at hb
        subst hb
        intro c hc
        simp only [addrLine, List.mem_append, List.mem_singleton] at hc
        rcases hc with hc | hc | rfl
        · revert c
          decide
        · have hc2 := mem_stripWS _ c hc
          cases hea : e.address with
          | none => rw [hea] at hc2; simp at hc2
          | some v =>
            rw [hea] at hc2
            exact (hvfA v hea).2.2.2.1 c hc2
        · decide
  · by_cases hep : (stripWS (e.privKey.getD "").data).isEmpty = true
    · simp [hep] at hb
    · simp only [hep, Bool.false_eq_true, ite_false,
        List.mem_singleton] at hb
      subst hb
      intro c hc
      simp only [pkLine, List.mem_append] at hc
      rcases hc with hc | hc
      · revert c
        decide
      · have hc2 := mem_stripWS _ c hc
        cases hep2 : e.privKey with
        | none => rw [hep2] at hc2; simp at hc2
        | some k =>
          rw [hep2] at hc2
          exact (hvfP k hep2).2.2.2.1 c hc2

end ShelbyBot

namespace ShelbyBot

theorem keys_map_lookup (X : AccountSet) (hnd : (X.map Prod.fst).Nodup) :
    (X.map Prod.fst).map (fun a => (a, (lookupA a X).getD ⟨none, none⟩)) = X := by
  induction X with
  | nil => rfl
  | cons p t ih =>
    obtain ⟨k, v⟩ := p
    simp only [List.map_cons, List.nodup_cons] at hnd ⊢
    rw [show lookupA k ((k, v) :: t) = some v from by simp [lookupA]]
    simp only [Option.getD_some]
    have htail : List.map
        (fun a => (a, (lookupA a ((k, v) :: t)).getD ⟨none, none⟩))
        (List.map Prod.fst t)
        = List.map (fun a => (a, (lookupA a t).getD ⟨none, none⟩))
            (List.map Prod.fst t) := by
      apply List.map_congr_left
      intro b hb
      have hkb : k ≠ b := fun hh => hnd.1 (hh ▸ hb)
      simp [lookupA, hkb]
    rw [htail, ih hnd.2]

/-- C1 (amended): round-trip law.  For every account set whose aliases are
unique non-empty `[A-Za-z0-9_.-]` tokens and whose present field values are
non-empty strings without leading or trailing whitespace, embedded
line-break characters, or surrounding quotes — and, as the code forces,
where every account has at least one present field and every present
private key is a single non-whitespace token — parsing the serializer's
output returns exactly the original account set (as a Python dictionary:
equal up to permutation of the unique-keyed entries, since the serializer
reorders aliases lexicographically). -/
theorem c1_roundtrip (X : AccountSet) (hX : validX X) :
    List.Perm (parse (serialize X)) X := by
  have hsplit : splitLines (serialize X).data = serializeLines X := by
    rw [show (serialize X).data
        = (serializeLines X).flatMap (fun l => l ++ ['\n']) from rfl,
      splitLines_flatMap _ (serializeLines_no_break X hX)]
  rw [parse, hsplit]
  have hfa : findAnchor (serializeLines X)
      = some ((sortKeys X).flatMap (blockOf X)) := by
    rw [serializeLines, findAnchor, findAnchor]
    simp [show matchAnchor headerComment = false from by decide,
      show matchAnchor ("accounts:".data) = true from by decide]
  rw [parseLines, hfa]
  show List.Perm (cleanup (scan ((sortKeys X).flatMap (blockOf X)) [] "")) X
  have hks : ∀ a ∈ sortKeys X,
      validAlias a ∧ ∃ e, lookupA a X = some e ∧ validAcct e := by
    intro a ha
    have haX : a ∈ X.map Prod.fst :=
      (List.perm_insertionSort keyLe _).mem_iff.mp ha
    obtain ⟨e, hle⟩ := (containsKey_iff_lookupA a X).mp
      ((containsKey_iff_mem_keys X a).mpr haX)
    have hent := hX.2 (a, e) (lookupA_mem X a e hle)
    exact ⟨hent.1, e, hle, hent.2⟩
  have hnd : (sortKeys X).Nodup :=
    (List.perm_insertionSort keyLe _).nodup_iff.mpr hX.1
  rw [scan_blocks (sortKeys X) X [] "" hks (fun a _ => rfl) hnd,
    List.nil_append]
  rw [cleanup_eq_self _ ?htr]
  · have hperm : List.Perm
        ((sortKeys X).map (fun a => (a, (lookupA a X).getD ⟨none, none⟩)))
        ((X.map Prod.fst).map (fun a => (a, (lookupA a X).getD ⟨none, none⟩))) :=
      (List.perm_insertionSort keyLe _).map _
    rwa [keys_map_lookup X hX.1] at hperm
  case htr =>
    intro p hp
    obtain ⟨a, ha, hpa⟩ := List.mem_map.mp hp
    obtain ⟨hva, e, hle, hve⟩ := hks a ha
    rw [← hpa, hle]
    rcases hve.2.2.1 with hno | hno
    · cases hea : e.address with
      | none => exact absurd hea hno
      | some v =>
        have hne := (hve.1 v hea).1
        simp only [Option.getD_some, hea, truthy]
        cases hv : v.data with
        | nil => exact absurd hv hne
        | cons _ _ => simp [hv]
    · cases hep : e.privKey with
      | none => exact absurd hep hno
      | some k =>
        have hne := (hve.2.1 k hep).1
        simp only [Option.getD_some, hep, truthy]
        cases hk : k.data with
        | nil => exact absurd hk hne
        | cons _ _ => simp [hk]

end ShelbyBot

namespace ShelbyBot

/-- Counterexample to C1 as stated: two account sets that satisfy the
claim's validity conditions fail the round trip.  A private key containing
an internal space is emitted but not re-parsed (the `(\S+)` group rejects
it), and an account with no fields serializes to a bare alias header that
the cleanup pass then discards. -/
theorem c1_counterexample :
    parse (serialize [("a", ⟨none, some "k 1"⟩)]) = [] ∧
    parse (serialize [("a", ⟨none, none⟩)]) = [] ∧
    ([] : AccountSet) ≠ [("a", ⟨none, some "k 1"⟩)] ∧
    ([] : AccountSet) ≠ [("a", ⟨none, none⟩)] :=
  ⟨by decide, by decide, by decide, by decide⟩

/-- Witness for C1: the round trip holds at a concrete valid account set. -/
theorem c1_roundtrip_witness :
    List.Perm (parse (serialize [("a", ⟨some "0xA", some "k"⟩)]))
      [("a", ⟨some "0xA", some "k"⟩)] :=
  c1_roundtrip [("a", ⟨some "0xA", some "k"⟩)] (by
    refine ⟨by decide, ?_⟩
    intro p hp
    rw [List.mem_singleton] at hp
    subst hp
    refine ⟨⟨by decide, by decide⟩, ?_, ?_, by simp, ?_⟩
    · intro s hs
      injection hs with hs
      subst hs
      refine ⟨by decide, ?_, ?_, by decide, by decide, by decide⟩
      · intro c hc
        rw [show ("0xA" : String).data.head? = some '0' from rfl] at hc
        injection hc with hc
        subst hc
        decide
      · intro c hc
        rw [show ("0xA" : String).data.getLast? = some 'A' from rfl] at hc
        injection hc with hc
        subst hc
        decide
    · intro s hs
      injection hs with hs
      subst hs
      refine ⟨by decide, ?_, ?_, by decide, by decide, by decide⟩
      · intro c hc
        rw [show ("k" : String).data.head? = some 'k' from rfl] at hc
        injection hc with hc
        subst hc
        decide
      · intro c hc
        rw [show ("k" : String).data.getLast? = some 'k' from rfl] at hc
        injection hc with hc
        subst hc
        decide
    · intro s hs
      injection hs with hs
      subst hs
      decide)

end ShelbyBot
